import Mathlib

/-!
# Verification of the proof-of-work miner

A shallow embedding, in Lean, of the dancing-blockchain miner written in Rust
(`block.rs`, `simpletree.rs`, `miner.rs`), together with theorems checking the
natural-language description of the system against that embedding.

Bytes are modelled as `Nat` values below 256, byte strings as `List Nat`,
64-bit integers as `Nat` with reductions `% 2^64` exactly where the Rust code
wraps, and the thread-local random generator as an explicit stream of draws
with a cursor. All definitions are executable; concrete runs are evaluated with
`decide` and `rfl` inside the theorems.
-/

set_option maxRecDepth 40000

/-! ## SHA-256 over byte lists

The `sha2` crate's `Sha256` is the digest the Rust code hashes blocks with; it
is reproduced here, bit-exactly (FIPS 180-4), over `List Nat` bytes so that the
claims about `hash_block` talk about the very digest the code produces. -/

/-- Right rotation of a 32-bit word given as a `Nat` below `2^32`. -/
def rotr32 (n x : Nat) : Nat := ((x >>> n) ||| (x <<< (32 - n))) % 4294967296

/-- Choice function of the SHA-256 round. -/
def shaCh (x y z : Nat) : Nat := (x &&& y) ^^^ ((x ^^^ 4294967295) &&& z)

/-- Majority function of the SHA-256 round. -/
def shaMaj (x y z : Nat) : Nat := (x &&& y) ^^^ (x &&& z) ^^^ (y &&& z)

/-- Big sigma-0 of SHA-256. -/
def bsig0 (x : Nat) : Nat := (rotr32 2 x) ^^^ (rotr32 13 x) ^^^ (rotr32 22 x)

/-- Big sigma-1 of SHA-256. -/
def bsig1 (x : Nat) : Nat := (rotr32 6 x) ^^^ (rotr32 11 x) ^^^ (rotr32 25 x)

/-- Small sigma-0 of SHA-256. -/
def ssig0 (x : Nat) : Nat := (rotr32 7 x) ^^^ (rotr32 18 x) ^^^ (x >>> 3)

/-- Small sigma-1 of SHA-256. -/
def ssig1 (x : Nat) : Nat := (rotr32 17 x) ^^^ (rotr32 19 x) ^^^ (x >>> 10)

/-- The 64 SHA-256 round constants. -/
def shaK : List Nat :=
  [1116352408, 1899447441, 3049323471, 3921009573, 961987163,
   1508970993, 2453635748, 2870763221, 3624381080, 310598401,
   607225278, 1426881987, 1925078388, 2162078206, 2614888103,
   3248222580, 3835390401, 4022224774, 264347078, 604807628,
   770255983, 1249150122, 1555081692, 1996064986, 2554220882,
   2821834349, 2952996808, 3210313671, 3336571891, 3584528711,
   113926993, 338241895, 666307205, 773529912, 1294757372,
   1396182291, 1695183700, 1986661051, 2177026350, 2456956037,
   2730485921, 2820302411, 3259730800, 3345764771, 3516065817,
   3600352804, 4094571909, 275423344, 430227734, 506948616,
   659060556, 883997877, 958139571, 1322822218, 1537002063,
   1747873779, 1955562222, 2024104815, 2227730452, 2361852424,
   2428436474, 2756734187, 3204031479, 3329325298]

/-- The eight SHA-256 initial hash words. -/
def shaH0 : List Nat :=
  [1779033703, 3144134277, 1013904242, 2773480762,
   1359893119, 2600822924, 528734635, 1541459225]

/-- Big-endian value of a byte list. -/
def beWord (l : List Nat) : Nat := l.foldl (fun acc b => acc * 256 + b) 0

/-- Splits a list into chunks of `n` elements, driven by explicit fuel so the
definition stays structurally recursive. -/
def chunkF (n : Nat) : Nat → List Nat → List (List Nat)
  | 0, _ => []
  | _, [] => []
  | fuel + 1, l => (l.take n) :: chunkF n fuel (l.drop n)

/-- Splits a list into chunks of `n` elements (last chunk possibly short). -/
def chunkN (n : Nat) (l : List Nat) : List (List Nat) := chunkF n l.length l

/-- Extends a 16-word message schedule by `k` further words. -/
def extendW (w : List Nat) : Nat → List Nat
  | 0 => w
  | k + 1 =>
    let m := w.length
    let nw := (ssig1 (w.getD (m - 2) 0) + w.getD (m - 7) 0 +
               ssig0 (w.getD (m - 15) 0) + w.getD (m - 16) 0) % 4294967296
    extendW (w ++ [nw]) k

/-- One SHA-256 round on the eight-word working state. -/
def compressStep (st : List Nat) (kw : Nat) : List Nat :=
  match st with
  | [a, b, c, d, e, f, g, h] =>
    let t1 := (h + bsig1 e + shaCh e f g + kw) % 4294967296
    let t2 := (bsig0 a + shaMaj a b c) % 4294967296
    [(t1 + t2) % 4294967296, a, b, c, (d + t1) % 4294967296, e, f, g]
  | _ => st

/-- Compression of a single padded 64-byte chunk into the running hash state. -/
def sha256Chunk (hs : List Nat) (chunk : List Nat) : List Nat :=
  let w := extendW ((chunkN 4 chunk).map beWord) 48
  let kw := (shaK.zip w).map (fun p => (p.1 + p.2) % 4294967296)
  let st := kw.foldl compressStep hs
  (hs.zip st).map (fun p => (p.1 + p.2) % 4294967296)

/-- SHA-256 padding: a `0x80` byte, zeros, then the bit length as eight
big-endian bytes, to a multiple of 64 bytes. -/
def shaPad (msg : List Nat) : List Nat :=
  let padLen := (64 - (msg.length + 9) % 64) % 64
  let bits := msg.length * 8
  msg ++ [128] ++ List.replicate padLen 0 ++
    [(bits >>> 56) % 256, (bits >>> 48) % 256, (bits >>> 40) % 256,
     (bits >>> 32) % 256, (bits >>> 24) % 256, (bits >>> 16) % 256,
     (bits >>> 8) % 256, bits % 256]

/-- Big-endian 4-byte serialization of a 32-bit word. -/
def wordBE4 (w : Nat) : List Nat :=
  [(w >>> 24) % 256, (w >>> 16) % 256, (w >>> 8) % 256, w % 256]

/-- The SHA-256 digest (32 bytes) of a byte list. -/
def sha256 (msg : List Nat) : List Nat :=
  (((chunkN 64 (shaPad msg)).foldl sha256Chunk shaH0).map wordBE4).flatten

/-- Sanity check against the FIPS 180-4 test vector for the empty message. -/
theorem sha256_nil_vector :
    sha256 [] = [0xe3, 0xb0, 0xc4, 0x42, 0x98, 0xfc, 0x1c, 0x14,
      0x9a, 0xfb, 0xf4, 0xc8, 0x99, 0x6f, 0xb9, 0x24,
      0x27, 0xae, 0x41, 0xe4, 0x64, 0x9b, 0x93, 0x4c,
      0xa4, 0x95, 0x99, 0x1b, 0x78, 0x52, 0xb8, 0x55] := by decide

/-! ## Blocks (`block.rs`)

`Block` carries a parent hash (byte string, empty for a genesis block), the
miner's identity string, a 64-bit nonce, and one of the four dance moves. -/

/-- UTF-8 encoding of one unicode scalar value, as Rust's `str::as_bytes`
produces it. -/
def utf8Enc (c : Nat) : List Nat :=
  if c < 0x80 then [c]
  else if c < 0x800 then
    [0xC0 ||| (c >>> 6), 0x80 ||| (c &&& 0x3F)]
  else if c < 0x10000 then
    [0xE0 ||| (c >>> 12), 0x80 ||| ((c >>> 6) &&& 0x3F), 0x80 ||| (c &&& 0x3F)]
  else
    [0xF0 ||| (c >>> 18), 0x80 ||| ((c >>> 12) &&& 0x3F),
     0x80 ||| ((c >>> 6) &&& 0x3F), 0x80 ||| (c &&& 0x3F)]

/-- The UTF-8 bytes of a string, matching Rust's `String::as_bytes`. -/
def strBytes (s : String) : List Nat := (s.data.map Char.toNat).flatMap utf8Enc

/-- The eight little-endian bytes of a `u64`, as `u64::to_le_bytes` yields
them; values are reduced the way the machine register would truncate them. -/
def leBytes8 (n : Nat) : List Nat :=
  [n % 256, (n >>> 8) % 256, (n >>> 16) % 256, (n >>> 24) % 256,
   (n >>> 32) % 256, (n >>> 40) % 256, (n >>> 48) % 256, (n >>> 56) % 256]

/-- The four dance moves a miner may declare, `Y = 1` being the default. -/
inductive DanceMove where
  | Y
  | M
  | C
  | A
deriving DecidableEq, Repr

/-- The `u8` discriminant of a dance move, as `dancemove as u8` reads it. -/
def DanceMove.toByte : DanceMove → Nat
  | .Y => 1
  | .M => 2
  | .C => 3
  | .A => 4

/-- A mining unit: parent hash, miner identity, nonce, declared dance move. -/
structure Block where
  parent_hash : List Nat
  miner : String
  nonce : Nat
  dancemove : DanceMove
deriving DecidableEq, Repr

/-- Constructor mirroring `Block::new`. -/
def Block.new (parent_hash : List Nat) (miner : String) (nonce : Nat)
    (dancemove : DanceMove) : Block :=
  { parent_hash := parent_hash, miner := miner, nonce := nonce,
    dancemove := dancemove }

/-- A streaming SHA-256 hasher: `update` feeds bytes, `finalize` digests
everything fed so far, exactly as the `sha2` crate's incremental interface
behaves over the concatenation of its inputs. -/
structure Sha256Hasher where
  fed : List Nat

/-- Fresh hasher holding no bytes, as `Sha256::new`. -/
def Sha256Hasher.new : Sha256Hasher := { fed := [] }

/-- Feeds further bytes to the hasher, as `Hasher::update`. -/
def Sha256Hasher.update (h : Sha256Hasher) (data : List Nat) : Sha256Hasher :=
  { fed := h.fed ++ data }

/-- Digests all bytes fed so far, as `Hasher::finalize`. -/
def Sha256Hasher.finalize (h : Sha256Hasher) : List Nat := sha256 h.fed

/-- The canonical hash of a block (`Block::hash_block`): SHA-256 fed, in
order, the parent hash, the miner's UTF-8 bytes, the nonce's little-endian
bytes, and the dance-move discriminant byte. -/
def Block.hash_block (b : Block) : List Nat :=
  let hasher := Sha256Hasher.new
  let hasher := hasher.update b.parent_hash
  let hasher := hasher.update (strBytes b.miner)
  let hasher := hasher.update (leBytes8 b.nonce)
  let hasher := hasher.update [b.dancemove.toByte]
  hasher.finalize

/-- Leading-zero count of a byte, as `u8::leading_zeros`. -/
def u8LeadingZeros (b : Nat) : Nat :=
  if 128 ≤ b then 0 else if 64 ≤ b then 1 else if 32 ≤ b then 2
  else if 16 ≤ b then 3 else if 8 ≤ b then 4 else if 4 ≤ b then 5
  else if 2 ≤ b then 6 else if 1 ≤ b then 7 else 8

/-- The accumulator loop inside `Block::pow_check`: eight bits per zero byte,
then the leading zeros of the first nonzero byte, and the loop breaks. -/
def leadingBitsLoop : List Nat → Nat
  | [] => 0
  | b :: rest => if b = 0 then 8 + leadingBitsLoop rest else u8LeadingZeros b

/-- Proof-of-work check (`Block::pow_check`): the counted leading zero bits of
`hash` must reach `difficulty`. The receiver block is unused, as in the
source. -/
def Block.pow_check (_ : Block) (hash : List Nat) (difficulty : Nat) : Bool :=
  difficulty ≤ leadingBitsLoop hash

/-- Genesis recognition (`Block::is_genesis`): empty parent hash and the
reserved miner name, the difficulty argument being ignored. -/
def Block.is_genesis (b : Block) (_difficulty : Nat) : Bool :=
  b.parent_hash.isEmpty && b.miner == "Genesis"

/-- The thread-local generator, embedded as a stream of draws and a cursor;
`next_u64` hands out the next draw truncated to 64 bits. -/
structure RngState where
  seq : Nat → Nat
  pos : Nat

/-- One `RngCore::next_u64` draw. -/
def RngState.nextU64 (r : RngState) : Nat × RngState :=
  (r.seq r.pos % 18446744073709551616, { seq := r.seq, pos := r.pos + 1 })

/-- The loop body iterations of `Block::solve_block`, one per remaining
attempt: install a fresh random nonce, rehash, and stop on success. -/
def Block.solveLoop (b : Block) (difficulty : Nat) :
    Nat → RngState → Block × Option (List Nat) × RngState
  | 0, r => (b, none, r)
  | fuel + 1, r =>
    let (n, r') := r.nextU64
    let b' := { b with nonce := n }
    let hash := b'.hash_block
    if b'.pow_check hash difficulty then (b', some hash, r')
    else b'.solveLoop difficulty fuel r'

/-- Nonce search (`Block::solve_block`): up to `max_iteration` attempts
(`u64::MAX` if none), each drawing a fresh nonce; returns the mutated block,
the digest on success, and the advanced generator. -/
def Block.solve_block (b : Block) (r : RngState) (difficulty : Nat)
    (max_iteration : Option Nat) : Block × Option (List Nat) × RngState :=
  b.solveLoop difficulty (max_iteration.getD 18446744073709551615) r

/-! ## The fork tree (`simpletree.rs`)

A `TreeNode` owns its value and an ordered list of child nodes; parenthood is
discovered through the value's `Parenting` capability, never stored. -/

/-- The capability a tree value uses to answer, given a byte-string id,
whether it is the parent so identified. -/
class Parenting (T : Type) where
  is_parent : T → List Nat → Bool

/-- A block claims parenthood for an id exactly when its own hash equals the
id (`impl Parenting for Block`). -/
instance : Parenting Block where
  is_parent b parent_id := b.hash_block == parent_id

/-- An owning tree node: a value and its ordered children. -/
inductive TreeNode (T : Type) where
  | node : T → List (TreeNode T) → TreeNode T

/-- A fresh childless node, as `TreeNode::new`. -/
def TreeNode.newNode {T : Type} (v : T) : TreeNode T := TreeNode.node v []

/-- The value of a node, as `TreeNode::value`. -/
def TreeNode.value {T : Type} : TreeNode T → T
  | .node v _ => v

/-- The children of a node, as `TreeNode::children`. -/
def TreeNode.children {T : Type} : TreeNode T → List (TreeNode T)
  | .node _ cs => cs

mutual

/-- Composite of `TreeNode::look_for_parent` and `TreeNode::insert`: the
pre-order search for the first node claiming parenthood of `parent_id`, and,
at that node, the appending of a new leaf carrying `v`; `none` when the search
finds no parent. -/
def TreeNode.insert_at_parent {T : Type} [Parenting T] (t : TreeNode T)
    (parent_id : List Nat) (v : T) : Option (TreeNode T) :=
  match t with
  | .node w cs =>
    if Parenting.is_parent w parent_id then
      some (.node w (cs ++ [TreeNode.newNode v]))
    else
      match insertAtParentL cs parent_id v with
      | some cs' => some (.node w cs')
      | none => none

/-- Pre-order descent of `look_for_parent` through a child list: the first
child subtree containing a parent receives the insertion. -/
def insertAtParentL {T : Type} [Parenting T] (cs : List (TreeNode T))
    (parent_id : List Nat) (v : T) : Option (List (TreeNode T)) :=
  match cs with
  | [] => none
  | c :: rest =>
    match c.insert_at_parent parent_id v with
    | some c' => some (c' :: rest)
    | none =>
      match insertAtParentL rest parent_id v with
      | some rest' => some (c :: rest')
      | none => none

end

mutual

/-- All values of a tree in pre-order, the root first. -/
def TreeNode.nodes {T : Type} : TreeNode T → List T
  | .node v cs => v :: nodesL cs

/-- All values of a list of trees in pre-order. -/
def nodesL {T : Type} : List (TreeNode T) → List T
  | [] => []
  | c :: cs => c.nodes ++ nodesL cs

end

mutual

/-- All parent-value/child-value pairs of a tree. -/
def TreeNode.edges {T : Type} : TreeNode T → List (T × T)
  | .node v cs => cs.map (fun c => (v, c.value)) ++ edgesL cs

/-- All parent-value/child-value pairs inside a list of trees. -/
def edgesL {T : Type} : List (TreeNode T) → List (T × T)
  | [] => []
  | c :: cs => c.edges ++ edgesL cs

end

mutual

/-- The helper of `TreeNode::deepest_leafs` on one node: state-passing form of
the `(max_depth, deepest)` mutable pair — a deeper leaf clears the collection,
an equally deep leaf is appended, inner nodes recurse into their children. -/
def TreeNode.deepHelper {T : Type} (t : TreeNode T) (depth : Nat)
    (st : Nat × List (TreeNode T)) : Nat × List (TreeNode T) :=
  match t with
  | .node _ [] =>
    if depth > st.1 then (depth, [t])
    else if depth = st.1 then (st.1, st.2 ++ [t])
    else st
  | .node _ (c :: cs) => deepHelperL (c :: cs) (depth + 1) st

/-- The helper of `deepest_leafs` folded left over a child list. -/
def deepHelperL {T : Type} (cs : List (TreeNode T)) (depth : Nat)
    (st : Nat × List (TreeNode T)) : Nat × List (TreeNode T) :=
  match cs with
  | [] => st
  | c :: rest => deepHelperL rest depth (c.deepHelper depth st)

end

/-- All deepest leaves of a tree (`TreeNode::deepest_leafs`), the root
counting as depth 1. -/
def TreeNode.deepest_leafs {T : Type} (t : TreeNode T) : List (TreeNode T) :=
  (t.deepHelper 1 (0, [])).2

/-! ## The chain builder (`miner.rs`, `Blockchain::new_from_genesis_and_vec`)

Repeated sweeps over the candidate list: a candidate whose nonce was already
accepted is pushed to the invalid list; one whose parent is found in the tree
is attached and its nonce recorded; the rest stay for the next sweep. Sweeps
repeat while some candidate was inserted. -/

/-- One `for block in remaining_blocks` pass: returns the tree, the recorded
nonce ids, the still-remaining candidates, the invalids found this pass (in
processing order), and whether some candidate was inserted. -/
def sweep (t : TreeNode Block) (ids : List Nat) :
    List Block →
    TreeNode Block × List Nat × List Block × List Block × Bool
  | [] => (t, ids, [], [], false)
  | b :: rest =>
    if ids.contains b.nonce then
      let (t', ids', still, inv, prog) := sweep t ids rest
      (t', ids', still, b :: inv, prog)
    else
      match t.insert_at_parent b.parent_hash b with
      | some t2 =>
        let (t', ids', still, inv, _) := sweep t2 (b.nonce :: ids) rest
        (t', ids', still, inv, true)
      | none =>
        let (t', ids', still, inv, prog) := sweep t ids rest
        (t', ids', b :: still, inv, prog)

/-- The `while inserted_some` loop, driven by fuel; a fuel of one more than
the candidate count always suffices, because a progressing sweep strictly
shrinks the remaining list (proved below as `buildLoop_fix`). -/
def buildLoop : Nat → TreeNode Block → List Nat → List Block → List Block →
    TreeNode Block × List Nat × List Block × List Block
  | 0, t, ids, rem, inv => (t, ids, rem, inv)
  | fuel + 1, t, ids, rem, inv =>
    let (t', ids', still, newInv, prog) := sweep t ids rem
    if prog then buildLoop fuel t' ids' still (inv ++ newInv)
    else (t', ids', still, inv ++ newInv)

/-- The converged builder state for a genesis and candidate list: final tree,
recorded nonces, orphans still remaining, and invalid duplicates. -/
def buildResult (genesis : Block) (blocks : List Block) :
    TreeNode Block × List Nat × List Block × List Block :=
  buildLoop (blocks.length + 1) (TreeNode.newNode genesis) [] blocks []

/-- `Blockchain::new_from_genesis_and_vec`: the tree grown from the genesis
root, and the unplaceable blocks — the converged orphans followed by the
invalid duplicates (`remaining_blocks.extend(invalid_blocks)`). -/
def new_from_genesis_and_vec (genesis : Block) (blocks : List Block) :
    TreeNode Block × List Block :=
  let (t, _, still, inv) := buildResult genesis blocks
  (t, still ++ inv)

/-! ## The mining loop body (`miner.rs`, `mine`)

One cycle of the loop after a snapshot was received: genesis election (with
synthesis, solving and broadcast of a fresh genesis when none is found), tree
construction, tip selection, mining of the next block, broadcast. The returned
list holds the blocks handed to the outbound channel during the cycle, in
order; `none` models the panic of the `unwrap` on an empty leaf list. -/

/-- One `random_dancemove` draw: a range draw in `0..4` mapped onto the four
moves. -/
def randomDancemove (r : RngState) : DanceMove × RngState :=
  let d := r.seq r.pos % 4
  (if d = 0 then DanceMove.Y else if d = 1 then DanceMove.M
   else if d = 2 then DanceMove.C else DanceMove.A,
   { seq := r.seq, pos := r.pos + 1 })

/-- Rust's `Iterator::min_by_key` on block nonces: the first element of least
key, `none` on an empty iterator. -/
def minByNonce (l : List Block) : Option Block :=
  l.foldl
    (fun best b =>
      match best with
      | none => some b
      | some m => if b.nonce < m.nonce then some b else some m)
    none

/-- Tip selection of `mine`: the first minimum, by nonce, of the values of
all deepest leaves of the tree. -/
def selectTip (t : TreeNode Block) : Option Block :=
  minByNonce (t.deepest_leafs.map TreeNode.value)

/-- One cycle of `mine` on a received snapshot: returns the blocks sent to the
outbound channel this cycle and the advanced generator, or `none` when the
`unwrap` on the deepest-leaf minimum panics. -/
def mineCycle (difficulty : Nat) (miner_name : String) (max_iter : Option Nat)
    (received : List Block) (r : RngState) : Option (List Block × RngState) :=
  let elected :=
    match received.find? (fun b => b.is_genesis difficulty) with
    | some g => (g, ([] : List Block), r)
    | none =>
      let (mv, r1) := randomDancemove r
      let b0 := Block.new [] "Genesis" 0 mv
      let (b1, _, r2) := b0.solve_block r1 difficulty max_iter
      (b1, [b1], r2)
  let (genesis, sent0, r1) := elected
  let chain := (new_from_genesis_and_vec genesis received).1
  match selectTip chain with
  | none => none
  | some leaf =>
    let (mv, r2) := randomDancemove r1
    let pre := Block.new leaf.hash_block miner_name 0 mv
    let (nb, _, r3) := pre.solve_block r2 difficulty max_iter
    some (sent0 ++ [nb], r3)

/-! ## Specification-side notions

Definitions written after the specification's words, to be compared with the
embedded code: the leading-zero-bit run of a big-endian bit string, the
depth-indexed leaves of a tree, and tree isomorphism as equality of the
parent/child relation on values. -/

/-- The eight bits of a byte, most significant first. -/
def byteBits (b : Nat) : List Nat :=
  [(b >>> 7) % 2, (b >>> 6) % 2, (b >>> 5) % 2, (b >>> 4) % 2,
   (b >>> 3) % 2, (b >>> 2) % 2, (b >>> 1) % 2, b % 2]

/-- The length of the leading run of zero bits of a byte sequence read as a
big-endian bit string. -/
def leadingZeroBits (h : List Nat) : Nat :=
  ((h.flatMap byteBits).takeWhile (· == 0)).length

/-- Every byte below 256 that is nonzero carries a one bit, placed so that the
zero-bit prefix of its big-endian bits has length `u8LeadingZeros`. -/
theorem byteBits_nonzero_prefix :
    ∀ b, b < 256 → b ≠ 0 →
      ((byteBits b).takeWhile (· == 0)).length = u8LeadingZeros b ∧
      ((byteBits b).takeWhile (· == 0)).length ≠ (byteBits b).length := by
  decide

/-- On byte sequences, the loop of `pow_check` computes exactly the
leading-zero-bit run of the big-endian bit string. -/
theorem leadingBitsLoop_eq_leadingZeroBits :
    ∀ h : List Nat, (∀ b ∈ h, b < 256) →
      leadingBitsLoop h = leadingZeroBits h := by
  intro h
  induction h with
  | nil => intro; rfl
  | cons b rest ih =>
    intro hb
    have hblt : b < 256 := hb b (by simp)
    by_cases hz : b = 0
    · subst hz
      have : leadingZeroBits (0 :: rest) = 8 + leadingZeroBits rest := by
        simp [leadingZeroBits, byteBits, List.takeWhile, List.flatMap]
        omega
      rw [this, leadingBitsLoop, if_pos rfl, ih (fun x hx => hb x (by simp [hx]))]
    · have hbb := byteBits_nonzero_prefix b hblt hz
      have hlen : ((byteBits b).takeWhile (· == 0)).length ≠ (byteBits b).length :=
        hbb.2
      have : leadingZeroBits (b :: rest) = u8LeadingZeros b := by
        unfold leadingZeroBits
        rw [List.flatMap_cons, List.takeWhile_append, if_neg hlen, hbb.1]
      rw [this, leadingBitsLoop, if_neg hz]

/-- C4. For every receiver block, every hash byte sequence `h` and every
difficulty `d`: `pow_check h 0` holds, and `pow_check h d` holds exactly when
the leading run of zero bits of `h`, read as a big-endian bit string (whole
zero bytes first, then the leading zero bits of the first nonzero byte), has
length at least `d`. -/
theorem pow_check_spec (blk : Block) (h : List Nat) (d : Nat)
    (hbytes : ∀ b ∈ h, b < 256) :
    blk.pow_check h 0 = true ∧
    (blk.pow_check h d = true ↔ d ≤ leadingZeroBits h) := by
  constructor
  · simp [Block.pow_check]
  · rw [Block.pow_check, leadingBitsLoop_eq_leadingZeroBits h hbytes]
    exact decide_eq_true_iff
/-- Witness: the theorem instantiated on the byte sequence `[0, 32]` (eleven
leading zero bits) at difficulty 11. -/
theorem pow_check_spec_witness :
    (Block.new [] "w" 0 DanceMove.Y).pow_check [0, 32] 0 = true ∧
    ((Block.new [] "w" 0 DanceMove.Y).pow_check [0, 32] 11 = true ↔
      11 ≤ leadingZeroBits [0, 32]) :=
  ⟨(pow_check_spec (Block.new [] "w" 0 DanceMove.Y) [0, 32] 11
      (by decide)).1,
   (pow_check_spec (Block.new [] "w" 0 DanceMove.Y) [0, 32] 11
      (by decide)).2⟩

/-- C5. `hash_block` is the SHA-256 digest of the concatenation of the parent
hash, the miner's UTF-8 bytes, the eight little-endian nonce bytes, and the
single dance-move discriminant byte; and it is a pure function of exactly
those four field values. -/
theorem hash_block_spec (b : Block) :
    b.hash_block =
      sha256 (b.parent_hash ++ strBytes b.miner ++ leBytes8 b.nonce ++
        [b.dancemove.toByte]) ∧
    (∀ b' : Block, b.parent_hash = b'.parent_hash → b.miner = b'.miner →
      b.nonce = b'.nonce → b.dancemove = b'.dancemove →
      b.hash_block = b'.hash_block) := by
  constructor
  · simp [Block.hash_block, Sha256Hasher.new, Sha256Hasher.update,
      Sha256Hasher.finalize]
  · intro b' h1 h2 h3 h4
    cases b
    cases b'
    simp only at h1 h2 h3 h4
    subst h1 h2 h3 h4
    rfl
/-- Witness: the genesis block's hash against the digest of its serialized
fields, and purity across two syntactically different but field-equal
blocks. -/
theorem hash_block_spec_witness :
    (Block.new [] "Genesis" 0 DanceMove.Y).hash_block =
      sha256 ([] ++ strBytes "Genesis" ++ leBytes8 0 ++
        [DanceMove.Y.toByte]) ∧
    (Block.new [] "Genesis" 0 DanceMove.Y).hash_block =
      (Block.new ([] ++ []) "Genesis" (0 + 0) DanceMove.Y).hash_block :=
  ⟨(hash_block_spec (Block.new [] "Genesis" 0 DanceMove.Y)).1,
   (hash_block_spec (Block.new [] "Genesis" 0 DanceMove.Y)).2
     (Block.new ([] ++ []) "Genesis" (0 + 0) DanceMove.Y)
     (by rfl) (by rfl) (by rfl) (by rfl)⟩

/-- The attempt budget of `solve_block`: the bound when one is given,
`u64::MAX` otherwise. -/
def solveBudget (max_iteration : Option Nat) : Nat :=
  max_iteration.getD 18446744073709551615

/-- The block tried at attempt `i` of a solving run: the input block with the
`i`-th generator draw installed as nonce. -/
def solveCandidate (b : Block) (r : RngState) (i : Nat) : Block :=
  { b with nonce := r.seq (r.pos + i) % 18446744073709551616 }

/-- Behaviour of the solving loop at any fuel: on success the digest is the
hash of the returned block, the proof of work holds, and the returned block is
the input block with some in-budget draw installed; on exhaustion every tried
nonce failed and the block carries the last (failing) draw. -/
theorem solveLoop_spec (d : Nat) :
    ∀ (k : Nat) (b : Block) (r : RngState),
      (∀ b' hsh r', b.solveLoop d k r = (b', some hsh, r') →
        hsh = b'.hash_block ∧ b'.pow_check hsh d = true ∧
        ∃ i, i < k ∧ b' = solveCandidate b r i) ∧
      (∀ b' r', b.solveLoop d k r = (b', none, r') →
        (∀ i, i < k →
          (solveCandidate b r i).pow_check (solveCandidate b r i).hash_block d
            = false) ∧
        (0 < k → b' = solveCandidate b r (k - 1))) := by
  intro k
  induction k with
  | zero =>
    intro b r
    constructor
    · intro b' hsh r' heq
      simp [Block.solveLoop] at heq
    · intro b' r' heq
      exact ⟨fun i hi => absurd hi (by omega), fun h0 => absurd h0 (by omega)⟩
  | succ k ih =>
    intro b r
    constructor
    · intro b' hsh r' heq
      rw [Block.solveLoop] at heq
      by_cases hpc :
          ({ b with nonce := r.seq r.pos % 18446744073709551616 } :
            Block).pow_check
            ({ b with nonce := r.seq r.pos % 18446744073709551616 } :
              Block).hash_block d = true
      · simp only [RngState.nextU64, hpc, if_pos] at heq
        have hb := congrArg Prod.fst heq
        have hh := Option.some.inj (congrArg (fun p => p.2.1) heq)
        simp only at hb hh
        refine ⟨?_, ?_, 0, by omega, ?_⟩
        · rw [← hh, ← hb]
        · rw [← hh, ← hb]; exact hpc
        · rw [← hb]; simp [solveCandidate]
      · simp only [RngState.nextU64, hpc, if_neg, Bool.not_eq_true] at heq
        have := ((ih { b with nonce := r.seq r.pos % 18446744073709551616 }
          { seq := r.seq, pos := r.pos + 1 }).1) b' hsh r' heq
        obtain ⟨h1, h2, i, hi, hc⟩ := this
        refine ⟨h1, h2, i + 1, by omega, ?_⟩
        rw [hc]
        simp only [solveCandidate]
        have harith : r.pos + 1 + i = r.pos + (i + 1) := by omega
        rw [harith]
    · intro b' r' heq
      rw [Block.solveLoop] at heq
      by_cases hpc :
          ({ b with nonce := r.seq r.pos % 18446744073709551616 } :
            Block).pow_check
            ({ b with nonce := r.seq r.pos % 18446744073709551616 } :
              Block).hash_block d = true
      · simp only [RngState.nextU64, hpc, if_pos] at heq
        exact absurd (congrArg (fun p => p.2.1) heq) (by simp)
      · simp only [RngState.nextU64, hpc, if_neg, Bool.not_eq_true] at heq
        have hrec := ((ih { b with nonce := r.seq r.pos % 18446744073709551616 }
          { seq := r.seq, pos := r.pos + 1 }).2) b' r' heq
        obtain ⟨hall, hlast⟩ := hrec
        constructor
        · intro i hi
          match i with
          | 0 =>
            have : solveCandidate b r 0 =
                ({ b with nonce := r.seq r.pos % 18446744073709551616 } :
                  Block) := by
              simp [solveCandidate]
            rw [this]
            exact (Bool.not_eq_true _).mp hpc
          | j + 1 =>
            have hj := hall j (by omega)
            have : solveCandidate
                ({ b with nonce := r.seq r.pos % 18446744073709551616 } :
                  Block)
                { seq := r.seq, pos := r.pos + 1 } j =
                solveCandidate b r (j + 1) := by
              simp only [solveCandidate]
              have harith : r.pos + 1 + j = r.pos + (j + 1) := by omega
              rw [harith]
            rw [this] at hj
            exact hj
        · intro
          match k, hall, hlast with
          | 0, _, _ =>
            rw [Block.solveLoop] at heq
            have hb := congrArg Prod.fst heq
            simp only at hb
            rw [← hb]
            simp [solveCandidate]
          | j + 1, _, hlast =>
            have hl := hlast (by omega)
            rw [hl]
            simp only [solveCandidate]
            have harith : r.pos + 1 + (j + 1 - 1) = r.pos + (j + 1 + 1 - 1) := by
              omega
            rw [harith]

/-- C3. `solve_block`: whenever a digest is returned it is the hash of the
block with the chosen (in-budget, freshly drawn) nonce installed and satisfies
the proof-of-work check at difficulty `d`; whenever `none` is returned after
exhausting the attempt budget, no nonce drawn in the run satisfied difficulty
`d` and the block is left carrying the last attempted, failing nonce. -/
theorem solve_block_spec (b : Block) (r : RngState) (d : Nat)
    (mi : Option Nat) :
    (∀ b' hsh r', b.solve_block r d mi = (b', some hsh, r') →
      hsh = b'.hash_block ∧ b'.pow_check hsh d = true ∧
      ∃ i, i < solveBudget mi ∧ b' = solveCandidate b r i) ∧
    (∀ b' r', b.solve_block r d mi = (b', none, r') →
      (∀ i, i < solveBudget mi →
        (solveCandidate b r i).pow_check (solveCandidate b r i).hash_block d
          = false) ∧
      (0 < solveBudget mi → b' = solveCandidate b r (solveBudget mi - 1))) :=
  solveLoop_spec d (solveBudget mi) b r

/-- Generator stream used by the solving witness. -/
def wRng : RngState := { seq := fun n => n + 7, pos := 0 }

/-- A concrete successful solving run at difficulty zero with one attempt. -/
def wSolve : Block × Option (List Nat) × RngState :=
  (Block.new [] "w" 5 DanceMove.M).solve_block wRng 0 (some 1)

/-- Witness: on the concrete one-attempt run at difficulty zero, the theorem
yields that the returned digest is the returned block's hash and passes the
proof-of-work check. -/
theorem solve_block_spec_witness :
    wSolve.2.1.getD [] = wSolve.1.hash_block ∧
    wSolve.1.pow_check (wSolve.2.1.getD []) 0 = true := by
  have h := (solve_block_spec (Block.new [] "w" 5 DanceMove.M) wRng 0
    (some 1)).1 wSolve.1 (wSolve.2.1.getD []) wSolve.2.2 (by rfl)
  exact ⟨h.1, h.2.1⟩

mutual

/-- The leaves below a node visited at depth `d`, paired with their depths, in
depth-first order; written after the specification of `deepest_leaves`. -/
def leavesD {T : Type} : TreeNode T → Nat → List (TreeNode T × Nat)
  | .node v [], d => [(TreeNode.node v [], d)]
  | .node _ (c :: cs), d => leavesDL (c :: cs) (d + 1)

/-- The leaves with depths of a list of sibling subtrees. -/
def leavesDL {T : Type} : List (TreeNode T) → Nat → List (TreeNode T × Nat)
  | [], _ => []
  | c :: cs, d => leavesD c d ++ leavesDL cs d

end

/-- The greatest leaf depth below a node visited at depth `d`. -/
def maxDepthT {T : Type} (t : TreeNode T) (d : Nat) : Nat :=
  ((leavesD t d).map Prod.snd).foldl max 0

/-- The greatest leaf depth among sibling subtrees visited at depth `d`. -/
def maxDepthL {T : Type} (cs : List (TreeNode T)) (d : Nat) : Nat :=
  ((leavesDL cs d).map Prod.snd).foldl max 0

/-- Folding `max` from any seed equals the seed joined with the fold from
zero. -/
theorem foldl_max_init (l : List Nat) :
    ∀ a : Nat, l.foldl max a = max a (l.foldl max 0) := by
  induction l with
  | nil => intro a; simp
  | cons x xs ih =>
    intro a
    simp only [List.foldl_cons]
    rw [ih (max a x), ih (max 0 x)]
    omega

/-- Every member is bounded by the `max` fold. -/
theorem mem_le_foldl_max (l : List Nat) :
    ∀ (a x : Nat), x ∈ l → x ≤ l.foldl max a := by
  induction l with
  | nil => intro a x hx; cases hx
  | cons y ys ih =>
    intro a x hx
    rw [List.foldl_cons, foldl_max_init ys]
    rcases List.mem_cons.mp hx with h | h
    · subst h
      exact le_trans (Nat.le_max_right a x) (Nat.le_max_left ..)
    · exact le_trans (ih 0 x h) (Nat.le_max_right ..)

/-- On a nonempty list, the `max` fold from zero is attained. -/
theorem foldl_max_mem (l : List Nat) (h : l ≠ []) : l.foldl max 0 ∈ l := by
  induction l with
  | nil => cases h rfl
  | cons y ys ih =>
    rw [List.foldl_cons, foldl_max_init ys]
    have hz : max 0 y = y := by omega
    rw [hz]
    by_cases hy : ys = []
    · subst hy; simp
    · rcases Nat.le_total (ys.foldl max 0) y with hle | hle
      · rw [max_eq_left hle]; simp
      · rw [max_eq_right hle]
        exact List.mem_cons_of_mem _ (ih hy)

/-- The `max` fold of a concatenation is the join of the folds. -/
theorem foldl_max_append (xs ys : List Nat) :
    (xs ++ ys).foldl max 0 =
      max (xs.foldl max 0) (ys.foldl max 0) := by
  rw [List.foldl_append, foldl_max_init ys]

mutual

/-- A tree always has at least one leaf. -/
theorem leavesD_ne_nil {T : Type} (t : TreeNode T) (d : Nat) :
    leavesD t d ≠ [] := by
  match t with
  | .node v [] => simp [leavesD]
  | .node v (c :: cs) =>
    rw [leavesD]
    exact leavesDL_ne_nil c cs (d + 1)

/-- A nonempty sibling list has at least one leaf. -/
theorem leavesDL_ne_nil {T : Type} (c : TreeNode T) (cs : List (TreeNode T))
    (d : Nat) : leavesDL (c :: cs) d ≠ [] := by
  rw [leavesDL]
  exact fun h => leavesD_ne_nil c d (List.append_eq_nil.mp h).1

end

mutual

/-- Every recorded leaf depth is at least the visiting depth. -/
theorem leavesD_depth_ge {T : Type} (t : TreeNode T) (d : Nat)
    (p : TreeNode T × Nat) (hp : p ∈ leavesD t d) : d ≤ p.2 := by
  match t with
  | .node v [] =>
    rw [leavesD] at hp
    rcases List.mem_singleton.mp hp with h
    rw [h]
  | .node v (c :: cs) =>
    rw [leavesD] at hp
    exact le_trans (by omega) (leavesDL_depth_ge (c :: cs) (d + 1) p hp)

/-- Every recorded leaf depth in a sibling list is at least the visiting
depth. -/
theorem leavesDL_depth_ge {T : Type} (cs : List (TreeNode T)) (d : Nat)
    (p : TreeNode T × Nat) (hp : p ∈ leavesDL cs d) : d ≤ p.2 := by
  match cs with
  | [] => cases hp
  | c :: rest =>
    rw [leavesDL] at hp
    rcases List.mem_append.mp hp with h | h
    · exact leavesD_depth_ge c d p h
    · exact leavesDL_depth_ge rest d p h

end

/-- Every leaf depth is bounded by the subtree's greatest leaf depth. -/
theorem leavesD_depth_le {T : Type} (t : TreeNode T) (d : Nat)
    (p : TreeNode T × Nat) (hp : p ∈ leavesD t d) : p.2 ≤ maxDepthT t d :=
  mem_le_foldl_max _ 0 _ (List.mem_map_of_mem Prod.snd hp)

/-- Every leaf depth of a sibling list is bounded by its greatest leaf
depth. -/
theorem leavesDL_depth_le {T : Type} (cs : List (TreeNode T)) (d : Nat)
    (p : TreeNode T × Nat) (hp : p ∈ leavesDL cs d) : p.2 ≤ maxDepthL cs d :=
  mem_le_foldl_max _ 0 _ (List.mem_map_of_mem Prod.snd hp)

mutual

/-- Characterization of the deepest-leaf helper on one subtree: the running
maximum is joined with the subtree's greatest leaf depth, the accumulator
survives exactly when unbeaten, and the leaves tied for the resulting maximum
are appended in depth-first order. -/
theorem deepHelper_spec {T : Type} (t : TreeNode T) (d m : Nat)
    (acc : List (TreeNode T)) :
    t.deepHelper d (m, acc) =
      (max m (maxDepthT t d),
       (if maxDepthT t d ≤ m then acc else []) ++
         ((leavesD t d).filter
           (fun p => p.2 == max m (maxDepthT t d))).map Prod.fst) := by
  match t with
  | .node v [] =>
    have hmax : maxDepthT (TreeNode.node v []) d = d := by
      simp [maxDepthT, leavesD]
    rw [hmax]
    show (if d > m then (d, [TreeNode.node v []])
      else if d = m then (m, acc ++ [TreeNode.node v []]) else (m, acc)) = _
    by_cases h1 : d > m
    · have h2 : ¬ d ≤ m := by omega
      have h3 : max m d = d := by omega
      rw [if_pos h1, if_neg h2, h3]
      simp [leavesD]
    · by_cases h2 : d = m
      · have h3 : d ≤ m := by omega
        have h4 : max m d = m := by omega
        rw [if_neg h1, if_pos h2, if_pos h3, h4]
        simp [leavesD, List.filter_cons, h2]
      · have h3 : d ≤ m := by omega
        have h4 : max m d = m := by omega
        rw [if_neg h1, if_neg h2, if_pos h3, h4]
        simp [leavesD, List.filter_cons, h2]
  | .node v (c :: cs) =>
    show deepHelperL (c :: cs) (d + 1) (m, acc) = _
    rw [deepHelperL_spec (c :: cs) (d + 1) m acc]
    rfl

/-- Characterization of the deepest-leaf helper folded over a sibling
list. -/
theorem deepHelperL_spec {T : Type} (cs : List (TreeNode T)) (d m : Nat)
    (acc : List (TreeNode T)) :
    deepHelperL cs d (m, acc) =
      (max m (maxDepthL cs d),
       (if maxDepthL cs d ≤ m then acc else []) ++
         ((leavesDL cs d).filter
           (fun p => p.2 == max m (maxDepthL cs d))).map Prod.fst) := by
  match cs with
  | [] =>
    have h0 : maxDepthL ([] : List (TreeNode T)) d = 0 := rfl
    rw [h0]
    show (m, acc) = _
    have h1 : max m 0 = m := by omega
    have h2 : (0 : Nat) ≤ m := by omega
    rw [if_pos h2, h1]
    simp [leavesDL]
  | c :: rest =>
    show deepHelperL rest d (TreeNode.deepHelper c d (m, acc)) = _
    rw [deepHelper_spec c d m acc,
      deepHelperL_spec rest d (max m (maxDepthT c d)) _]
    have hL : leavesDL (c :: rest) d = leavesD c d ++ leavesDL rest d := rfl
    have hM : maxDepthL (c :: rest) d =
        max (maxDepthT c d) (maxDepthL rest d) := by
      unfold maxDepthL maxDepthT
      rw [show leavesDL (c :: rest) d = leavesD c d ++ leavesDL rest d
        from rfl, List.map_append, foldl_max_append]
    rw [hL, hM, List.filter_append, List.map_append]
    rw [max_assoc m (maxDepthT c d) (maxDepthL rest d)]
    set M1 := maxDepthT c d with hM1
    set M2 := maxDepthL rest d with hM2
    by_cases ha : M1 ≤ m
    · have he1 : max m M1 = m := by omega
      by_cases hb : M2 ≤ m
      · have he2 : max m (max M1 M2) = m := by omega
        have hc2 : max M1 M2 ≤ m := by omega
        simp only [he1, he2, if_pos ha, if_pos hb, if_pos hc2]
        rw [List.append_assoc]
      · have he2 : max m (max M1 M2) = M2 := by omega
        have hc2 : ¬ max M1 M2 ≤ m := by omega
        simp only [he1, he2, if_pos ha, if_neg hb, if_neg hc2]
        have hf1 : (leavesD c d).filter (fun p => p.2 == M2) = [] := by
          rw [List.filter_eq_nil_iff]
          intro p hp
          have hple := leavesD_depth_le c d p hp
          rw [← hM1] at hple
          simp only [beq_iff_eq]
          omega
        rw [hf1]
        simp
    · have he1 : max m M1 = M1 := by omega
      by_cases hb : M2 ≤ M1
      · have he2 : max m (max M1 M2) = M1 := by omega
        have hc2 : ¬ max M1 M2 ≤ m := by omega
        simp only [he1, he2, if_neg ha, if_pos hb, if_neg hc2]
        simp [List.append_assoc]
      · have he2 : max m (max M1 M2) = M2 := by omega
        have hc2 : ¬ max M1 M2 ≤ m := by omega
        simp only [he1, he2, if_neg ha, if_neg hb, if_neg hc2]
        have hf1 : (leavesD c d).filter (fun p => p.2 == M2) = [] := by
          rw [List.filter_eq_nil_iff]
          intro p hp
          have hple := leavesD_depth_le c d p hp
          rw [← hM1] at hple
          simp only [beq_iff_eq]
          omega
        rw [hf1]
        simp

end

/-- The greatest leaf depth of a tree, the root counting as depth 1. -/
def maxLeafDepth {T : Type} (t : TreeNode T) : Nat := maxDepthT t 1

/-- The greatest leaf depth of a tree is at least one. -/
theorem maxLeafDepth_pos {T : Type} (t : TreeNode T) : 1 ≤ maxLeafDepth t := by
  obtain ⟨p, hp⟩ := List.exists_mem_of_ne_nil _ (leavesD_ne_nil t 1)
  have h1 := leavesD_depth_ge t 1 p hp
  have h2 := leavesD_depth_le t 1 p hp
  unfold maxLeafDepth
  omega

/-- C7. `deepest_leafs` returns exactly the leaf nodes whose depth from the
root (the root counting as depth 1) equals the tree's maximum leaf depth —
every node tied for the maximum, not just one — in the order the leaves are
encountered by a depth-first traversal. -/
theorem deepest_leafs_spec {T : Type} (t : TreeNode T) :
    t.deepest_leafs =
      ((leavesD t 1).filter (fun p => p.2 == maxLeafDepth t)).map Prod.fst := by
  have hpos := maxLeafDepth_pos t
  have h1 : max 0 (maxDepthT t 1) = maxDepthT t 1 := by omega
  have h2 : ¬ maxDepthT t 1 ≤ 0 := by unfold maxLeafDepth at hpos; omega
  unfold TreeNode.deepest_leafs
  rw [deepHelper_spec t 1 0 ([] : List (TreeNode T))]
  simp only [h1, if_neg h2, List.nil_append]
  rfl

/-- Some leaf attains the maximum depth, so the filtered collection is never
empty. -/
theorem deepest_leafs_ne_nil {T : Type} (t : TreeNode T) :
    t.deepest_leafs ≠ [] := by
  rw [deepest_leafs_spec]
  have hne : (leavesD t 1).map Prod.snd ≠ [] := by
    intro h
    exact leavesD_ne_nil t 1 (List.map_eq_nil_iff.mp h)
  have hmem := foldl_max_mem _ hne
  obtain ⟨p, hp, hp2⟩ := List.mem_map.mp hmem
  intro hcontra
  have : p ∈ (leavesD t 1).filter (fun q => q.2 == maxLeafDepth t) := by
    rw [List.mem_filter]
    exact ⟨hp, by simp [maxLeafDepth, maxDepthT, hp2]⟩
  rw [List.map_eq_nil_iff.mp hcontra] at this
  cases this

/-- The first-minimum fold behind `min_by_key`, seeded with a block, returns
a least-nonce element drawn from the seed or the list. -/
theorem minFold_spec (l : List Block) :
    ∀ m : Block,
      ∃ b, l.foldl
          (fun best x =>
            match best with
            | none => some x
            | some mm => if x.nonce < mm.nonce then some x else some mm)
          (some m) = some b ∧
        (b = m ∨ b ∈ l) ∧ b.nonce ≤ m.nonce ∧ ∀ x ∈ l, b.nonce ≤ x.nonce := by
  induction l with
  | nil =>
    intro m
    exact ⟨m, rfl, Or.inl rfl, le_refl _, fun x hx => absurd hx (by simp)⟩
  | cons y ys ih =>
    intro m
    by_cases hy : y.nonce < m.nonce
    · obtain ⟨b, hb, hmem, hle, hall⟩ := ih y
      refine ⟨b, ?_, ?_, ?_, ?_⟩
      · simpa [hy] using hb
      · rcases hmem with h | h
        · exact Or.inr (by simp [h])
        · exact Or.inr (by simp [h])
      · omega
      · intro x hx
        rcases List.mem_cons.mp hx with h | h
        · subst h; omega
        · exact hall x h
    · obtain ⟨b, hb, hmem, hle, hall⟩ := ih m
      refine ⟨b, ?_, ?_, ?_, ?_⟩
      · simpa [hy] using hb
      · rcases hmem with h | h
        · exact Or.inl h
        · exact Or.inr (by simp [h])
      · exact hle
      · intro x hx
        rcases List.mem_cons.mp hx with h | h
        · subst h; omega
        · exact hall x h

/-- On a nonempty list `min_by_key` returns a member of least nonce. -/
theorem minByNonce_spec (l : List Block) (h : l ≠ []) :
    ∃ b, minByNonce l = some b ∧ b ∈ l ∧ ∀ x ∈ l, b.nonce ≤ x.nonce := by
  match l with
  | [] => cases h rfl
  | y :: ys =>
    obtain ⟨b, hb, hmem, hle, hall⟩ := minFold_spec ys y
    refine ⟨b, ?_, ?_, ?_⟩
    · simpa [minByNonce] using hb
    · rcases hmem with hh | hh
      · simp [hh]
      · simp [hh]
    · intro x hx
      rcases List.mem_cons.mp hx with hh | hh
      · subst hh; exact hle
      · exact hall x hh

/-- C10. `deepest_leafs` never returns an empty collection — a childless node
is itself the unique deepest leaf, and otherwise some descendant leaf is
returned — so the minimum the mining loop unwraps always exists. -/
theorem deepest_leafs_nonempty_and_tip :
    (∀ (T : Type) (t : TreeNode T), t.deepest_leafs ≠ []) ∧
    (∀ t : TreeNode Block, (selectTip t).isSome = true) := by
  refine ⟨fun T t => deepest_leafs_ne_nil t, fun t => ?_⟩
  have hne : t.deepest_leafs.map TreeNode.value ≠ [] := by
    intro h
    exact deepest_leafs_ne_nil t (List.map_eq_nil_iff.mp h)
  obtain ⟨b, hb, _, _⟩ := minByNonce_spec _ hne
  rw [selectTip, hb]
  rfl

/-- Block with a given nonce, used by the tip-selection example. -/
def tipB (n : Nat) : Block := Block.new [] "t" n DanceMove.Y

/-- Example tree of the specification: two leaves at depth 3 carrying nonces
5 and 2, one leaf at depth 2. -/
def exTree : TreeNode Block :=
  TreeNode.node (tipB 0)
    [TreeNode.node (tipB 10) [TreeNode.node (tipB 5) []],
     TreeNode.node (tipB 11) [TreeNode.node (tipB 2) []],
     TreeNode.node (tipB 7) []]

/-- C6. The tip extended by a mining cycle is, among the deepest leaves of the
tree, the one of numerically least nonce; on the example tree with two
depth-3 leaves (nonces 5 and 2) and one depth-2 leaf, the depth-3 leaf with
nonce 2 is chosen. -/
theorem select_tip_spec :
    (∀ t : TreeNode Block, ∃ b, selectTip t = some b ∧
      b ∈ t.deepest_leafs.map TreeNode.value ∧
      ∀ b' ∈ t.deepest_leafs.map TreeNode.value, b.nonce ≤ b'.nonce) ∧
    selectTip exTree = some (tipB 2) := by
  constructor
  · intro t
    have hne : t.deepest_leafs.map TreeNode.value ≠ [] := by
      intro h
      exact deepest_leafs_ne_nil t (List.map_eq_nil_iff.mp h)
    obtain ⟨b, hb, hmem, hall⟩ := minByNonce_spec _ hne
    exact ⟨b, hb, hmem, hall⟩
  · rfl

/-! ## Shape of tree insertion

What `look_for_parent` followed by `insert` does to the value multiset and to
the parent/child relation of the tree. -/

/-- Pre-order values distribute over list concatenation. -/
theorem nodesL_append {T : Type} (xs ys : List (TreeNode T)) :
    nodesL (xs ++ ys) = nodesL xs ++ nodesL ys := by
  induction xs with
  | nil => rfl
  | cons c cs ih => simp [nodesL, ih]

/-- Edges distribute over list concatenation. -/
theorem edgesL_append {T : Type} (xs ys : List (TreeNode T)) :
    edgesL (xs ++ ys) = edgesL xs ++ edgesL ys := by
  induction xs with
  | nil => rfl
  | cons c cs ih => simp [edgesL, ih]

/-- Mapping the pairing with a fixed first component factors through the
values. -/
theorem map_pair_value {T : Type} (w : T) (ds : List (TreeNode T)) :
    ds.map (fun c => (w, c.value)) =
      (ds.map TreeNode.value).map (fun u => (w, u)) := by
  rw [List.map_map]
  rfl

mutual

/-- A successful insertion keeps the root value, adds exactly the new value to
the node multiset, and adds exactly one edge — from some node claiming
parenthood of the searched id to the new value. -/
theorem insert_shape {T : Type} [Parenting T] (t : TreeNode T)
    (pid : List Nat) (v : T) :
    ∀ t', t.insert_at_parent pid v = some t' →
      t'.value = t.value ∧
      t'.nodes.Perm (v :: t.nodes) ∧
      ∃ p, p ∈ t.nodes ∧ Parenting.is_parent p pid = true ∧
        t'.edges.Perm ((p, v) :: t.edges) := by
  match t with
  | .node w cs =>
    intro t' h
    rw [TreeNode.insert_at_parent] at h
    by_cases hw : Parenting.is_parent w pid = true
    · rw [if_pos hw] at h
      have ht' := (Option.some.inj h).symm
      subst ht'
      refine ⟨rfl, ?_, w, by simp [TreeNode.nodes], hw, ?_⟩
      · simp only [TreeNode.nodes, nodesL_append]
        have hsing : nodesL [TreeNode.newNode v] = [v] := by
          simp [nodesL, TreeNode.newNode, TreeNode.nodes]
        rw [hsing]
        exact List.Perm.trans
          ((List.perm_cons w).mpr (List.perm_append_singleton v (nodesL cs)))
          (List.Perm.swap v w (nodesL cs))
      · simp only [TreeNode.edges, edgesL_append, List.map_append]
        have h1 : edgesL [TreeNode.newNode v] = [] := by
          simp [edgesL, TreeNode.edges, TreeNode.newNode]
        have h2 : [TreeNode.newNode v].map
            (fun c => (w, c.value)) = [(w, v)] := by
          simp [TreeNode.newNode, TreeNode.value]
        rw [h1, h2, List.append_nil, List.append_assoc]
        exact List.perm_middle
    · rw [if_neg hw] at h
      match hrec : insertAtParentL cs pid v with
      | some cs' =>
        rw [hrec] at h
        have ht' := (Option.some.inj h).symm
        subst ht'
        obtain ⟨hval, hnodes, p, hp, hpp, hedges⟩ := insert_shapeL cs pid v cs' hrec
        refine ⟨rfl, ?_, p, by simp [TreeNode.nodes, hp], hpp, ?_⟩
        · simp only [TreeNode.nodes]
          exact List.Perm.trans ((List.perm_cons w).mpr hnodes)
            (List.Perm.swap v w (nodesL cs))
        · simp only [TreeNode.edges, map_pair_value, hval]
          refine List.Perm.trans (List.Perm.append_left _ hedges) ?_
          exact List.perm_middle
      | none =>
        rw [hrec] at h
        cases h

/-- List form of `insert_shape`: values of the sibling roots are unchanged,
one subtree receives the insertion. -/
theorem insert_shapeL {T : Type} [Parenting T] (cs : List (TreeNode T))
    (pid : List Nat) (v : T) :
    ∀ cs', insertAtParentL cs pid v = some cs' →
      cs'.map TreeNode.value = cs.map TreeNode.value ∧
      (nodesL cs').Perm (v :: nodesL cs) ∧
      ∃ p, p ∈ nodesL cs ∧ Parenting.is_parent p pid = true ∧
        (edgesL cs').Perm ((p, v) :: edgesL cs) := by
  match cs with
  | [] =>
    intro cs' h
    rw [insertAtParentL] at h
    cases h
  | c :: rest =>
    intro cs' h
    rw [insertAtParentL] at h
    match hrec : c.insert_at_parent pid v with
    | some c' =>
      rw [hrec] at h
      have hcs' := (Option.some.inj h).symm
      subst hcs'
      obtain ⟨hval, hnodes, p, hp, hpp, hedges⟩ := insert_shape c pid v c' hrec
      refine ⟨by simp [hval], ?_, p, ?_, hpp, ?_⟩
      · simp only [nodesL]
        exact List.Perm.append_right (nodesL rest) hnodes
      · simp [nodesL, List.mem_append, hp]
      · simp only [edgesL]
        exact List.Perm.append_right (edgesL rest) hedges
    | none =>
      rw [hrec] at h
      match hrec2 : insertAtParentL rest pid v with
      | some rest' =>
        rw [hrec2] at h
        have hcs' := (Option.some.inj h).symm
        subst hcs'
        obtain ⟨hval, hnodes, p, hp, hpp, hedges⟩ :=
          insert_shapeL rest pid v rest' hrec2
        refine ⟨by simp [hval], ?_, p, ?_, hpp, ?_⟩
        · simp only [nodesL]
          exact List.Perm.trans (List.Perm.append_left c.nodes hnodes)
            List.perm_middle
        · simp [nodesL, List.mem_append, hp]
        · simp only [edgesL]
          exact List.Perm.trans (List.Perm.append_left c.edges hedges)
            List.perm_middle
      | none =>
        rw [hrec2] at h
        cases h

end

mutual

/-- A failed search means no node of the tree claims parenthood of the id. -/
theorem insert_none {T : Type} [Parenting T] (t : TreeNode T)
    (pid : List Nat) (v : T) :
    t.insert_at_parent pid v = none →
      ∀ p ∈ t.nodes, Parenting.is_parent p pid = false := by
  match t with
  | .node w cs =>
    intro h p hp
    rw [TreeNode.insert_at_parent] at h
    by_cases hw : Parenting.is_parent w pid = true
    · rw [if_pos hw] at h
      cases h
    · rw [if_neg hw] at h
      match hrec : insertAtParentL cs pid v with
      | some cs' =>
        rw [hrec] at h
        cases h
      | none =>
        rcases List.mem_cons.mp hp with hh | hh
        · subst hh
          exact Bool.not_eq_true _ ▸ hw
        · exact insert_noneL cs pid v hrec p hh

/-- List form of `insert_none`. -/
theorem insert_noneL {T : Type} [Parenting T] (cs : List (TreeNode T))
    (pid : List Nat) (v : T) :
    insertAtParentL cs pid v = none →
      ∀ p ∈ nodesL cs, Parenting.is_parent p pid = false := by
  match cs with
  | [] =>
    intro _ p hp
    cases hp
  | c :: rest =>
    intro h p hp
    rw [insertAtParentL] at h
    match hrec : c.insert_at_parent pid v with
    | some c' =>
      rw [hrec] at h
      cases h
    | none =>
      rw [hrec] at h
      match hrec2 : insertAtParentL rest pid v with
      | some rest' =>
        rw [hrec2] at h
        cases h
      | none =>
        rcases List.mem_append.mp hp with hh | hh
        · exact insert_none c pid v hrec p hh
        · exact insert_noneL rest pid v hrec2 p hh

end

/-! ## The builder invariant

Reachability from the genesis through declared parent hashes, and the
invariant the sweeps of `new_from_genesis_and_vec` maintain. -/

/-- A candidate is reachable when its declared parent is the genesis or a
reachable candidate; only reachable candidates can ever be attached. -/
inductive Reachable (g : Block) (l : List Block) : Block → Prop where
  | root : ∀ b, b ∈ l → b.parent_hash = g.hash_block → Reachable g l b
  | step : ∀ b c, b ∈ l → Reachable g l c → b.parent_hash = c.hash_block →
      Reachable g l b

/-- Reachability only depends on the candidate list through membership. -/
theorem Reachable_congr (g : Block) (l1 l2 : List Block)
    (hmem : ∀ b, b ∈ l1 → b ∈ l2) (b : Block) (h : Reachable g l1 b) :
    Reachable g l2 b := by
  induction h with
  | root b hb hp => exact Reachable.root b (hmem b hb) hp
  | step b c hb _ hp ih => exact Reachable.step b c (hmem b hb) ih hp

/-- The invariant of the builder: the tree's values are the genesis plus the
attached blocks, every input block is attached, pending or invalid, the
recorded ids are the attached nonces and are distinct, attached blocks are
reachable, invalid blocks reuse an attached nonce, and each edge joins a node
claiming parenthood of its child's declared parent hash. -/
def BuildInv (g : Block) (l : List Block) (t : TreeNode Block)
    (ids : List Nat) (pool inv att : List Block) : Prop :=
  t.value = g ∧
  t.nodes.Perm (g :: att) ∧
  (att ++ pool ++ inv).Perm l ∧
  ids.Perm (att.map Block.nonce) ∧
  (att.map Block.nonce).Nodup ∧
  (∀ b ∈ att, Reachable g l b) ∧
  (∀ b ∈ inv, b.nonce ∈ att.map Block.nonce) ∧
  (∀ pr ∈ t.edges, Parenting.is_parent pr.1 pr.2.parent_hash = true ∧
    pr.1 ∈ t.nodes) ∧
  (t.edges.map Prod.snd).Perm att

/-- One sweep preserves the builder invariant: attached blocks only grow, the
collected invalids are nonce reusers, no tree or id change happens in a
progress-free sweep, and a progressing sweep strictly shrinks the pool. -/
theorem sweep_inv (g : Block) (l : List Block) :
    ∀ (rem : List Block) (t : TreeNode Block) (ids : List Nat)
      (rest inv att : List Block),
      BuildInv g l t ids (rem ++ rest) inv att →
      ∀ t' ids' still newInv prog,
        sweep t ids rem = (t', ids', still, newInv, prog) →
        ∃ att', att.Sublist att' ∧
          BuildInv g l t' ids' (still ++ rest) (inv ++ newInv) att' ∧
          still.length ≤ rem.length ∧
          (prog = true → still.length < rem.length) ∧
          (prog = false → t' = t ∧ ids' = ids ∧
            ∀ x ∈ still, t.insert_at_parent x.parent_hash x = none) := by
  intro rem
  induction rem with
  | nil =>
    intro t ids rest inv att hInv t' ids' still newInv prog heq
    rw [sweep] at heq
    simp only [Prod.mk.injEq] at heq
    obtain ⟨h1, h2, h3, h4, h5⟩ := heq
    subst h1 h2 h3 h4 h5
    refine ⟨att, List.Sublist.refl att, by simpa using hInv, by simp,
      by simp, ?_⟩
    intro _
    exact ⟨rfl, rfl, fun x hx => absurd hx (by simp)⟩
  | cons b rem2 ih =>
    intro t ids rest inv att hInv t' ids' still newInv prog heq
    obtain ⟨hroot, hnodes, hcons, hids, hnd, hreach, hinvp, hedge, hsnd⟩ := hInv
    rw [sweep] at heq
    by_cases hdup : ids.contains b.nonce = true
    · rw [if_pos hdup] at heq
      match hrec : sweep t ids rem2 with
      | (t1, ids1, still1, inv1, prog1) =>
        rw [hrec] at heq
        simp only [Prod.mk.injEq] at heq
        obtain ⟨h1, h2, h3, h4, h5⟩ := heq
        subst h1 h2 h3 h4 h5
        have hbmem : b.nonce ∈ att.map Block.nonce := by
          have h1 : b.nonce ∈ ids := by simpa using hdup
          exact (hids.mem_iff).mp h1
        have hInv2 : BuildInv g l t ids (rem2 ++ rest) (inv ++ [b]) att := by
          refine ⟨hroot, hnodes, ?_, hids, hnd, hreach, ?_, hedge, hsnd⟩
          · rw [List.perm_iff_count]
            intro a
            have hc := hcons.count_eq a
            simp only [List.count_append, List.count_cons, List.count_nil] at hc ⊢
            split_ifs at hc ⊢ <;> omega
          · intro x hx
            rcases List.mem_append.mp hx with hh | hh
            · exact hinvp x hh
            · rw [List.mem_singleton.mp hh]
              exact hbmem
        obtain ⟨att', hsub, hInv', hlen, hprogT, hprogF⟩ :=
          ih t ids rest (inv ++ [b]) att hInv2 t1 ids1 still1 inv1 prog1 hrec
        refine ⟨att', hsub, ?_, by simp; omega, by intro _; simp; omega, ?_⟩
        · have hre : inv ++ b :: inv1 = (inv ++ [b]) ++ inv1 := by simp
          rw [hre]
          exact hInv'
        · intro hp0
          exact hprogF hp0
    · rw [if_neg hdup] at heq
      match hins : t.insert_at_parent b.parent_hash b with
      | some t2 =>
        rw [hins] at heq
        simp only at heq
        match hrec : sweep t2 (b.nonce :: ids) rem2 with
        | (t1, ids1, still1, inv1, prog1) =>
          rw [hrec] at heq
          simp only [Prod.mk.injEq] at heq
          obtain ⟨h1, h2, h3, h4, h5⟩ := heq
          subst h1 h2 h3 h4
          obtain ⟨hval2, hnodes2, p, hpmem, hpp, hedges2⟩ :=
            insert_shape t b.parent_hash b t2 hins
          have hbl : b ∈ l := by
            refine (hcons.mem_iff).mp ?_
            simp
          have hbn : b.nonce ∉ att.map Block.nonce := by
            intro hmem
            exact hdup (by simpa using (hids.mem_iff).mpr hmem)
          have hphash : p.hash_block = b.parent_hash := beq_iff_eq.mp hpp
          have hpgatt : p ∈ g :: att := (hnodes.mem_iff).mp hpmem
          have hreachb : Reachable g l b := by
            rcases List.mem_cons.mp hpgatt with hpg | hpa
            · exact Reachable.root b hbl (by rw [← hphash, hpg])
            · exact Reachable.step b p hbl (hreach p hpa) hphash.symm
          have hInv2 : BuildInv g l t2 (b.nonce :: ids) (rem2 ++ rest) inv
              (att ++ [b]) := by
            refine ⟨?_, ?_, ?_, ?_, ?_, ?_, ?_, ?_, ?_⟩
            · rw [hval2, hroot]
            · rw [List.perm_iff_count]
              intro a
              have c1 := hnodes2.count_eq a
              have c2 := hnodes.count_eq a
              simp only [List.count_append, List.count_cons, List.count_nil] at c1 c2 ⊢
              split_ifs at c1 c2 ⊢ <;> omega
            · rw [List.perm_iff_count]
              intro a
              have c1 := hcons.count_eq a
              simp only [List.count_append, List.count_cons, List.count_nil] at c1 ⊢
              split_ifs at c1 ⊢ <;> omega
            · rw [List.perm_iff_count]
              intro a
              have c1 := hids.count_eq a
              simp only [List.map_append, List.map_cons, List.map_nil,
                List.count_append, List.count_cons, List.count_nil] at c1 ⊢
              split_ifs at c1 ⊢ <;> omega
            · rw [List.map_append]
              refine List.Nodup.append hnd (by simp) ?_
              intro a ha hb2
              simp only [List.map_cons, List.map_nil, List.mem_singleton]
                at hb2
              rw [hb2] at ha
              exact hbn ha
            · intro x hx
              rcases List.mem_append.mp hx with hh | hh
              · exact hreach x hh
              · rw [List.mem_singleton.mp hh]
                exact hreachb
            · intro x hx
              rw [List.map_append]
              exact List.mem_append_left _ (hinvp x hx)
            · intro pr hpr
              rcases List.mem_cons.mp ((hedges2.mem_iff).mp hpr) with hh | hh
              · rw [hh]
                exact ⟨hpp, (hnodes2.mem_iff).mpr (List.mem_cons_of_mem b hpmem)⟩
              · obtain ⟨e1, e2⟩ := hedge pr hh
                exact ⟨e1, (hnodes2.mem_iff).mpr (List.mem_cons_of_mem b e2)⟩
            · rw [List.perm_iff_count]
              intro a
              have c1 := (hedges2.map Prod.snd).count_eq a
              have c2 := hsnd.count_eq a
              simp only [List.map_append, List.map_cons, List.map_nil,
                List.count_append, List.count_cons, List.count_nil] at c1 c2 ⊢
              split_ifs at c1 c2 ⊢ <;> omega
          obtain ⟨att', hsub, hInv', hlen, hprogT, hprogF⟩ :=
            ih t2 (b.nonce :: ids) rest inv (att ++ [b]) hInv2
              t1 ids1 still1 inv1 prog1 hrec
          refine ⟨att',
            List.Sublist.trans (List.sublist_append_left att [b]) hsub,
            hInv', by simp; omega, by intro _; simp; omega, ?_⟩
          intro hp0
          rw [← h5] at hp0
          cases hp0
      | none =>
        rw [hins] at heq
        simp only at heq
        match hrec : sweep t ids rem2 with
        | (t1, ids1, still1, inv1, prog1) =>
          rw [hrec] at heq
          simp only [Prod.mk.injEq] at heq
          obtain ⟨h1, h2, h3, h4, h5⟩ := heq
          subst h1 h2 h3 h4 h5
          have hInv2 : BuildInv g l t ids (rem2 ++ (b :: rest)) inv att := by
            refine ⟨hroot, hnodes, ?_, hids, hnd, hreach, hinvp, hedge, hsnd⟩
            rw [List.perm_iff_count]
            intro a
            have hc := hcons.count_eq a
            simp only [List.count_append, List.count_cons, List.count_nil] at hc ⊢
            split_ifs at hc ⊢ <;> omega
          obtain ⟨att', hsub, hInv', hlen, hprogT, hprogF⟩ :=
            ih t ids (b :: rest) inv att hInv2 t1 ids1 still1 inv1 prog1 hrec
          obtain ⟨i1, i2, i3, i4, i5, i6, i7, i8, i9⟩ := hInv'
          refine ⟨att', hsub, ⟨i1, i2, ?_, i4, i5, i6, i7, i8, i9⟩,
            by simp; omega, ?_, ?_⟩
          · rw [List.perm_iff_count]
            intro a
            have hc := i3.count_eq a
            simp only [List.count_append, List.count_cons, List.count_nil] at hc ⊢
            split_ifs at hc ⊢ <;> omega
          · intro hp1
            have := hprogT hp1
            simp only [List.length_cons]
            omega
          · intro hp0
            obtain ⟨e1, e2, e3⟩ := hprogF hp0
            refine ⟨e1, e2, ?_⟩
            intro x hx
            rcases List.mem_cons.mp hx with hh | hh
            · rw [hh]
              exact hins
            · exact e3 x hh

/-- The sweep loop, run on enough fuel, converges: the invariant holds of the
final state and no still-remaining block can find a parent in the final
tree. -/
theorem buildLoop_inv (g : Block) (l : List Block) :
    ∀ (fuel : Nat) (t : TreeNode Block) (ids : List Nat)
      (rem inv att : List Block),
      rem.length < fuel →
      BuildInv g l t ids rem inv att →
      ∀ t' ids' still inv',
        buildLoop fuel t ids rem inv = (t', ids', still, inv') →
        ∃ att', att.Sublist att' ∧ BuildInv g l t' ids' still inv' att' ∧
          ∀ x ∈ still, t'.insert_at_parent x.parent_hash x = none := by
  intro fuel
  induction fuel with
  | zero =>
    intro t ids rem inv att hflt
    omega
  | succ k ih =>
    intro t ids rem inv att hflt hInv t' ids' still inv' heq
    rw [buildLoop] at heq
    match hrec : sweep t ids rem with
    | (t1, ids1, still1, newInv1, prog1) =>
      rw [hrec] at heq
      simp only at heq
      have hInv0 : BuildInv g l t ids (rem ++ []) inv att := by
        simpa using hInv
      obtain ⟨att1, hsub1, hInv1, hlen1, hprogT1, hprogF1⟩ :=
        sweep_inv g l rem t ids [] inv att hInv0 t1 ids1 still1 newInv1
          prog1 hrec
      have hInv1' : BuildInv g l t1 ids1 still1 (inv ++ newInv1) att1 := by
        simpa using hInv1
      match prog1 with
      | true =>
        simp only [if_pos] at heq
        have hlt : still1.length < k := by
          have := hprogT1 rfl
          omega
        obtain ⟨att2, hsub2, hInv2, hfix⟩ :=
          ih t1 ids1 still1 (inv ++ newInv1) att1 hlt hInv1' t' ids' still
            inv' heq
        exact ⟨att2, List.Sublist.trans hsub1 hsub2, hInv2, hfix⟩
      | false =>
        simp only [if_neg, Bool.false_eq_true, not_false_iff] at heq
        simp only [Prod.mk.injEq] at heq
        obtain ⟨e1, e2, e3, e4⟩ := heq
        subst e1 e2 e3 e4
        obtain ⟨f1, f2, f3⟩ := hprogF1 rfl
        subst f1 f2
        exact ⟨att1, hsub1, hInv1', f3⟩

/-- Characterization of the converged builder: the final tree holds the
genesis plus a set of attached candidates with pairwise distinct nonces, all
reachable; every candidate is attached, an orphan, or an invalid duplicate;
invalids reuse an attached nonce; edges join a parent claiming the child's
declared parent hash; and no orphan finds a parent in the final tree. -/
theorem buildResult_spec (g : Block) (l : List Block) :
    ∃ att,
      (buildResult g l).1.value = g ∧
      (buildResult g l).1.nodes.Perm (g :: att) ∧
      (att ++ (buildResult g l).2.2.1 ++ (buildResult g l).2.2.2).Perm l ∧
      (att.map Block.nonce).Nodup ∧
      (∀ b ∈ att, Reachable g l b) ∧
      (∀ b ∈ (buildResult g l).2.2.2, b.nonce ∈ att.map Block.nonce) ∧
      (∀ pr ∈ (buildResult g l).1.edges,
        Parenting.is_parent pr.1 pr.2.parent_hash = true ∧
        pr.1 ∈ (buildResult g l).1.nodes) ∧
      ((buildResult g l).1.edges.map Prod.snd).Perm att ∧
      (∀ x ∈ (buildResult g l).2.2.1,
        (buildResult g l).1.insert_at_parent x.parent_hash x = none) := by
  have hInit : BuildInv g l (TreeNode.newNode g) [] l [] [] := by
    refine ⟨rfl, ?_, by simp, by simp, by simp, by simp, by simp, ?_, ?_⟩
    · simp [TreeNode.newNode, TreeNode.nodes, nodesL]
    · intro pr hpr
      simp [TreeNode.newNode, TreeNode.edges, edgesL] at hpr
    · simp [TreeNode.newNode, TreeNode.edges, edgesL]
  match hres : buildResult g l with
  | (t', ids', still', inv') =>
    obtain ⟨att, hsub, hInv, hfix⟩ :=
      buildLoop_inv g l (l.length + 1) (TreeNode.newNode g) [] l []
        [] (by omega) hInit t' ids' still' inv' hres
    obtain ⟨i1, i2, i3, i4, i5, i6, i7, i8, i9⟩ := hInv
    exact ⟨att, i1, i2, i3, i5, i6, i7, i8, i9, hfix⟩

/-- The blocks attached below the root: every tree value except the root's. -/
def attachedOf (t : TreeNode Block) : List Block := t.nodes.tail

/-- A tree's pre-order values are its root value followed by the attached
values. -/
theorem nodes_eq_cons (t : TreeNode Block) :
    t.nodes = t.value :: attachedOf t := by
  match t with
  | .node v cs => rfl

/-- The builder splits its result into the final tree and the concatenation
of the converged orphans with the invalid duplicates. -/
theorem new_from_split (g : Block) (l : List Block) :
    new_from_genesis_and_vec g l =
      ((buildResult g l).1,
        (buildResult g l).2.2.1 ++ (buildResult g l).2.2.2) := by
  unfold new_from_genesis_and_vec
  match buildResult g l with
  | (t, ids, still, inv) => rfl

/-- The attached blocks are, up to order, the `att` of the builder
characterization. -/
theorem attachedOf_perm (g : Block) (l : List Block) (att : List Block)
    (hval : (buildResult g l).1.value = g)
    (hperm : (buildResult g l).1.nodes.Perm (g :: att)) :
    (attachedOf (buildResult g l).1).Perm att := by
  have h := nodes_eq_cons (buildResult g l).1
  rw [hval] at h
  rw [h] at hperm
  exact hperm.cons_inv

/-- C8. Given two candidates carrying the same nonce, the builder attaches at
most one of them: the attached blocks carry pairwise distinct nonces, every
candidate is attached or unplaceable, two same-nonce attached blocks are the
same block, and a same-nonce candidate left unattached lands in the
unplaceable list. -/
theorem duplicate_nonce_spec (g : Block) (l : List Block) (b1 b2 : Block)
    (h1 : b1 ∈ l) (h2 : b2 ∈ l) (hn : b1.nonce = b2.nonce) :
    ((attachedOf (new_from_genesis_and_vec g l).1).map Block.nonce).Nodup ∧
    (attachedOf (new_from_genesis_and_vec g l).1 ++
      (new_from_genesis_and_vec g l).2).Perm l ∧
    (b1 ∈ attachedOf (new_from_genesis_and_vec g l).1 →
      b2 ∈ attachedOf (new_from_genesis_and_vec g l).1 → b1 = b2) ∧
    (b1 ∉ attachedOf (new_from_genesis_and_vec g l).1 →
      b1 ∈ (new_from_genesis_and_vec g l).2) ∧
    (b2 ∉ attachedOf (new_from_genesis_and_vec g l).1 →
      b2 ∈ (new_from_genesis_and_vec g l).2) := by
  obtain ⟨att, i1, i2, i3, i4, i5, i6, i7, i8, i9⟩ := buildResult_spec g l
  rw [new_from_split]
  simp only
  have hap : (attachedOf (buildResult g l).1).Perm att :=
    attachedOf_perm g l att i1 i2
  have hconv : (attachedOf (buildResult g l).1 ++
      ((buildResult g l).2.2.1 ++ (buildResult g l).2.2.2)).Perm l := by
    rw [List.perm_iff_count]
    intro a
    have c1 := i3.count_eq a
    have c2 := hap.count_eq a
    simp only [List.count_append] at c1 c2 ⊢
    omega
  refine ⟨?_, hconv, ?_, ?_, ?_⟩
  · exact ((hap.map Block.nonce).nodup_iff).mpr i4
  · intro hb1 hb2
    exact List.inj_on_of_nodup_map
      (((hap.map Block.nonce).nodup_iff).mpr i4) hb1 hb2 hn
  · intro hb1
    rcases List.mem_append.mp ((hconv.mem_iff).mpr h1) with hh | hh
    · exact absurd hh hb1
    · exact hh
  · intro hb2
    rcases List.mem_append.mp ((hconv.mem_iff).mpr h2) with hh | hh
    · exact absurd hh hb2
    · exact hh

/-- C9. A candidate whose declared parent hash matches no block's hash in the
set is never attached (it occurs in the tree only if it happens to be the
genesis itself, and then only as the given root); it lands in the unplaceable
list, which is precisely the converged orphans followed by the invalid
duplicates — orphans find no parent in the final tree, duplicates reuse a
tree nonce. -/
theorem orphan_spec (g : Block) (l : List Block) (b : Block) (hb : b ∈ l)
    (horph : ∀ p ∈ g :: l, p.hash_block ≠ b.parent_hash) :
    (new_from_genesis_and_vec g l).1.nodes.count b =
      (if b = g then 1 else 0) ∧
    b ∈ (new_from_genesis_and_vec g l).2 ∧
    (new_from_genesis_and_vec g l).2 =
      (buildResult g l).2.2.1 ++ (buildResult g l).2.2.2 ∧
    (∀ x ∈ (buildResult g l).2.2.1,
      (buildResult g l).1.insert_at_parent x.parent_hash x = none) ∧
    (∀ d ∈ (buildResult g l).2.2.2,
      d.nonce ∈ (buildResult g l).1.nodes.map Block.nonce) := by
  obtain ⟨att, i1, i2, i3, i4, i5, i6, i7, i8, i9⟩ := buildResult_spec g l
  have hattl : ∀ a ∈ att, a ∈ l := by
    intro a ha
    exact (i3.mem_iff).mp (List.mem_append_left _ (List.mem_append_left _ ha))
  have hbnotatt : b ∉ att := by
    intro hmem
    obtain ⟨pr, hpr, hpr2⟩ := List.mem_map.mp ((i8.mem_iff).mpr hmem)
    obtain ⟨e1, e2⟩ := i7 pr hpr
    have hhash : pr.1.hash_block = pr.2.parent_hash := beq_iff_eq.mp e1
    have hp1 : pr.1 ∈ g :: l := by
      rcases List.mem_cons.mp ((i2.mem_iff).mp e2) with hh | hh
      · exact hh ▸ List.mem_cons_self _ _
      · exact List.mem_cons_of_mem _ (hattl pr.1 hh)
    exact horph pr.1 hp1 (by rw [hhash, hpr2])
  have hcount0 : att.count b = 0 := List.count_eq_zero.mpr hbnotatt
  rw [new_from_split]
  simp only
  refine ⟨?_, ?_, trivial, i9, ?_⟩
  · have c1 := i2.count_eq b
    simp only [List.count_cons, List.count_nil] at c1 ⊢
    by_cases hbg : b = g
    · rw [if_pos hbg]
      subst hbg
      simp at c1
      omega
    · rw [if_neg hbg]
      have : ¬ (g = b) := fun hh => hbg hh.symm
      simp [this] at c1
      omega
  · have c1 := i3.count_eq b
    have hbl : 0 < l.count b := List.count_pos_iff.mpr hb
    simp only [List.count_append] at c1
    have : 0 < ((buildResult g l).2.2.1 ++ (buildResult g l).2.2.2).count b := by
      simp only [List.count_append]
      omega
    exact List.count_pos_iff.mp this
  · intro d hd
    have := i6 d hd
    obtain ⟨a, ha, ha2⟩ := List.mem_map.mp this
    exact List.mem_map.mpr ⟨a, (i2.mem_iff).mpr (List.mem_cons_of_mem _ ha),
      ha2⟩

/-- With pairwise distinct candidate nonces, every reachable candidate is
attached by the converged builder: the fixed point cannot strand a block whose
parent is in the tree, and the duplicate check never fires. -/
theorem reachable_attached (g : Block) (l : List Block) (att : List Block)
    (hnonce : (l.map Block.nonce).Nodup)
    (hnodes : (buildResult g l).1.nodes.Perm (g :: att))
    (hcons : (att ++ (buildResult g l).2.2.1 ++
      (buildResult g l).2.2.2).Perm l)
    (hinv : ∀ d ∈ (buildResult g l).2.2.2, d.nonce ∈ att.map Block.nonce)
    (hfix : ∀ x ∈ (buildResult g l).2.2.1,
      (buildResult g l).1.insert_at_parent x.parent_hash x = none) :
    ∀ b, Reachable g l b → b ∈ att := by
  have hattl : ∀ a ∈ att, a ∈ l := by
    intro a ha
    exact (hcons.mem_iff).mp (List.mem_append_left _ (List.mem_append_left _ ha))
  have main : ∀ (b q : Block), b ∈ l → q ∈ g :: att →
      b.parent_hash = q.hash_block → b ∈ att := by
    intro b q hb hq hp
    rcases List.mem_append.mp ((hcons.mem_iff).mpr hb) with hh | hh
    · rcases List.mem_append.mp hh with h3 | h3
      · exact h3
      · exfalso
        have hnone := hfix b h3
        have hall := insert_none (buildResult g l).1 b.parent_hash b hnone
        have hqn : q ∈ (buildResult g l).1.nodes := (hnodes.mem_iff).mpr hq
        have := hall q hqn
        rw [show Parenting.is_parent q b.parent_hash =
          (q.hash_block == b.parent_hash) from rfl] at this
        rw [beq_eq_false_iff_ne] at this
        exact this hp.symm
    · have := hinv b hh
      obtain ⟨a, ha, han⟩ := List.mem_map.mp this
      have : a = b :=
        List.inj_on_of_nodup_map hnonce (hattl a ha) hb han
      rw [← this]
      exact ha
  intro b hreach
  induction hreach with
  | root b hb hp => exact main b g hb (List.mem_cons_self g att) hp
  | step b c hb _ hp ih => exact main b c hb (List.mem_cons_of_mem g ih) hp

/-- The canonical parent of a candidate: the first block of the genesis-led
set whose hash equals the candidate's declared parent hash. -/
def theParent (g : Block) (l : List Block) (b : Block) : Block :=
  ((g :: l).find? (fun p => p.hash_block == b.parent_hash)).getD g

/-- With pairwise distinct hashes, the canonical parent is the only matching
block. -/
theorem theParent_eq (g : Block) (l : List Block) (b p : Block)
    (hhash : ((g :: l).map Block.hash_block).Nodup)
    (hp : p ∈ g :: l) (hmatch : p.hash_block = b.parent_hash) :
    theParent g l b = p := by
  have hex : ((g :: l).find?
      (fun q => q.hash_block == b.parent_hash)).isSome = true := by
    rw [List.find?_isSome]
    exact ⟨p, hp, beq_iff_eq.mpr hmatch⟩
  match hfind : (g :: l).find? (fun q => q.hash_block == b.parent_hash) with
  | none => rw [hfind] at hex; cases hex
  | some q =>
    have hq1 : q ∈ g :: l := List.mem_of_find?_eq_some hfind
    have hq2x := List.find?_some hfind
    simp only [beq_iff_eq] at hq2x
    have hq2 : q.hash_block = b.parent_hash := hq2x
    have : q = p :=
      List.inj_on_of_nodup_map hhash hq1 hp (by rw [hq2, hmatch])
    rw [theParent, hfind, Option.getD_some, this]

/-- Tree isomorphism in the sense of the specification: same root value, same
value multiset, same parent/child relation on values. -/
def isoTrees (t1 t2 : TreeNode Block) : Prop :=
  t1.value = t2.value ∧ t1.nodes.Perm t2.nodes ∧ t1.edges.Perm t2.edges

/-- Decidability of tree isomorphism, for evaluating concrete runs. -/
instance (t1 t2 : TreeNode Block) : Decidable (isoTrees t1 t2) := by
  unfold isoTrees
  exact instDecidableAnd

/-- Under distinct hashes, the edges of the converged tree are the attached
blocks paired with their canonical parents. -/
theorem edges_canonical (g : Block) (l : List Block) (att : List Block)
    (hhash : ((g :: l).map Block.hash_block).Nodup)
    (hnodes : (buildResult g l).1.nodes.Perm (g :: att))
    (hcons : (att ++ (buildResult g l).2.2.1 ++
      (buildResult g l).2.2.2).Perm l)
    (hedge : ∀ pr ∈ (buildResult g l).1.edges,
      Parenting.is_parent pr.1 pr.2.parent_hash = true ∧
      pr.1 ∈ (buildResult g l).1.nodes)
    (hsnd : ((buildResult g l).1.edges.map Prod.snd).Perm att) :
    (buildResult g l).1.edges.Perm
      (att.map (fun b => (theParent g l b, b))) := by
  have hattl : ∀ a ∈ att, a ∈ l := by
    intro a ha
    exact (hcons.mem_iff).mp (List.mem_append_left _ (List.mem_append_left _ ha))
  have hfix : ∀ pr ∈ (buildResult g l).1.edges,
      (fun q => (theParent g l q.2, q.2)) pr = pr := by
    intro pr hpr
    obtain ⟨e1, e2⟩ := hedge pr hpr
    have hhash1 : pr.1.hash_block = pr.2.parent_hash := beq_iff_eq.mp e1
    have hp1 : pr.1 ∈ g :: l := by
      rcases List.mem_cons.mp ((hnodes.mem_iff).mp e2) with hh | hh
      · exact hh ▸ List.mem_cons_self _ _
      · exact List.mem_cons_of_mem _ (hattl pr.1 hh)
    have := theParent_eq g l pr.2 pr.1 hhash hp1 hhash1
    simp only [this]
  have hstep : (buildResult g l).1.edges =
      ((buildResult g l).1.edges.map Prod.snd).map
        (fun b => (theParent g l b, b)) := by
    rw [List.map_map]
    have h0 := List.map_congr_left hfix
    have h1 : (buildResult g l).1.edges.map (fun a => a) =
        (buildResult g l).1.edges := by simp
    show (buildResult g l).1.edges =
      (buildResult g l).1.edges.map (fun q => (theParent g l q.2, q.2))
    rw [h0, h1]
  rw [hstep]
  exact hsnd.map _

/-- C2 (amended). Building from a genesis and any permutation of a valid
block set — every parent present, and, as the counterexample forces, nonces
pairwise distinct and hashes pairwise distinct — produces an isomorphic tree
regardless of input order. -/
theorem build_reorder_iso (g : Block) (l1 l2 : List Block)
    (hperm : l1.Perm l2)
    (_hvalid : ∀ b ∈ l1, ∃ p, p ∈ g :: l1 ∧ b.parent_hash = p.hash_block)
    (hnonce : (l1.map Block.nonce).Nodup)
    (hhash : ((g :: l1).map Block.hash_block).Nodup) :
    isoTrees (new_from_genesis_and_vec g l1).1
      (new_from_genesis_and_vec g l2).1 := by
  have hnonce2 : (l2.map Block.nonce).Nodup :=
    ((hperm.map Block.nonce).nodup_iff).mp hnonce
  have hhash2 : ((g :: l2).map Block.hash_block).Nodup :=
    (((hperm.cons g).map Block.hash_block).nodup_iff).mp hhash
  obtain ⟨att1, a1, a2, a3, a4, a5, a6, a7, a8, a9⟩ := buildResult_spec g l1
  obtain ⟨att2, b1, b2, b3, b4, b5, b6, b7, b8, b9⟩ := buildResult_spec g l2
  have hattl2 : ∀ a ∈ att2, a ∈ l2 := fun a ha =>
    (b3.mem_iff).mp (List.mem_append_left _ (List.mem_append_left _ ha))
  have hchar1 : ∀ b, b ∈ att1 ↔ Reachable g l1 b := by
    intro b
    exact ⟨a5 b, fun h => reachable_attached g l1 att1 hnonce a2 a3 a6 a9 b h⟩
  have hchar2 : ∀ b, b ∈ att2 ↔ Reachable g l2 b := by
    intro b
    exact ⟨b5 b, fun h =>
      reachable_attached g l2 att2 hnonce2 b2 b3 b6 b9 b h⟩
  have hmemiff : ∀ b, b ∈ att1 ↔ b ∈ att2 := by
    intro b
    rw [hchar1, hchar2]
    exact ⟨Reachable_congr g l1 l2 (fun x hx => (hperm.mem_iff).mp hx) b,
      Reachable_congr g l2 l1 (fun x hx => (hperm.mem_iff).mpr hx) b⟩
  have hattperm : att1.Perm att2 :=
    (List.perm_ext_iff_of_nodup (List.Nodup.of_map _ a4)
      (List.Nodup.of_map _ b4)).mpr hmemiff
  rw [new_from_split, new_from_split]
  show isoTrees (buildResult g l1).1 (buildResult g l2).1
  refine ⟨by rw [a1, b1], a2.trans ((hattperm.cons g).trans b2.symm), ?_⟩
  have he1 := edges_canonical g l1 att1 hhash a2 a3 a7 a8
  have he2 := edges_canonical g l2 att2 hhash2 b2 b3 b7 b8
  have hpar : ∀ b ∈ att2, theParent g l1 b = theParent g l2 b := by
    intro b hbm
    have hsndm : b ∈ (buildResult g l2).1.edges.map Prod.snd :=
      (b8.mem_iff).mpr hbm
    obtain ⟨pr, hpr, hpr2⟩ := List.mem_map.mp hsndm
    obtain ⟨e1, e2⟩ := b7 pr hpr
    have hh : pr.1.hash_block = pr.2.parent_hash := beq_iff_eq.mp e1
    have hp2 : pr.1 ∈ g :: l2 := by
      rcases List.mem_cons.mp ((b2.mem_iff).mp e2) with hh2 | hh2
      · exact hh2 ▸ List.mem_cons_self _ _
      · exact List.mem_cons_of_mem _ (hattl2 pr.1 hh2)
    have hp1 : pr.1 ∈ g :: l1 := by
      rcases List.mem_cons.mp hp2 with hh2 | hh2
      · exact hh2 ▸ List.mem_cons_self _ _
      · exact List.mem_cons_of_mem _ ((hperm.mem_iff).mpr hh2)
    rw [hpr2] at hh
    rw [theParent_eq g l1 b pr.1 hhash hp1 hh,
      theParent_eq g l2 b pr.1 hhash2 hp2 hh]
  have hmapeq : att2.map (fun b => (theParent g l1 b, b)) =
      att2.map (fun b => (theParent g l2 b, b)) :=
    List.map_congr_left (fun b hbm => by rw [hpar b hbm])
  have hx : (att2.map (fun b => (theParent g l1 b, b))).Perm
      (buildResult g l2).1.edges := by
    rw [hmapeq]
    exact he2.symm
  exact he1.trans ((hattperm.map _).trans hx)

/-- Genesis block used by the concrete builder runs. -/
def cgW : Block := Block.new [] "Genesis" 0 DanceMove.Y

/-- A child of the genesis with nonce 7 mined by `x`. -/
def cb1W : Block := Block.new cgW.hash_block "x" 7 DanceMove.Y

/-- A different child of the genesis carrying the same nonce 7. -/
def cb2W : Block := Block.new cgW.hash_block "y" 7 DanceMove.Y

/-- Counterexample to C2 as stated: the set `{cb1W, cb2W}` is valid (every
parent present) yet carries a duplicate nonce, and the two input orders build
non-isomorphic trees — each order attaches a different block. -/
theorem build_reorder_counterexample :
    ([cb1W, cb2W] : List Block).Perm [cb2W, cb1W] ∧
    (∀ b ∈ [cb1W, cb2W], ∃ p, p ∈ cgW :: [cb1W, cb2W] ∧
      b.parent_hash = p.hash_block) ∧
    ¬ isoTrees (new_from_genesis_and_vec cgW [cb1W, cb2W]).1
        (new_from_genesis_and_vec cgW [cb2W, cb1W]).1 := by
  refine ⟨by decide, by decide, by decide⟩

/-- First child of the genesis in the reordering witness. -/
def cd1W : Block := Block.new cgW.hash_block "m1" 1 DanceMove.Y

/-- Grandchild of the genesis in the reordering witness. -/
def cd2W : Block := Block.new cd1W.hash_block "m2" 2 DanceMove.Y

/-- Witness: on a concrete valid set with distinct nonces and hashes,
presented once with the child before its parent and once in parent order, the
amended theorem yields isomorphic trees. -/
theorem build_reorder_iso_witness :
    isoTrees (new_from_genesis_and_vec cgW [cd2W, cd1W]).1
      (new_from_genesis_and_vec cgW [cd1W, cd2W]).1 :=
  build_reorder_iso cgW [cd2W, cd1W] [cd1W, cd2W]
    (by decide) (by decide) (by decide) (by decide)

/-- Witness: on the concrete duplicate-nonce pair, the theorem yields the
conservation of candidates and that the second same-nonce block is
unplaceable. -/
theorem duplicate_nonce_spec_witness :
    (attachedOf (new_from_genesis_and_vec cgW [cb1W, cb2W]).1 ++
      (new_from_genesis_and_vec cgW [cb1W, cb2W]).2).Perm [cb1W, cb2W] ∧
    cb2W ∈ (new_from_genesis_and_vec cgW [cb1W, cb2W]).2 := by
  have h := duplicate_nonce_spec cgW [cb1W, cb2W] cb1W cb2W
    (by decide) (by decide) rfl
  exact ⟨h.2.1, h.2.2.2.2 (by decide)⟩

/-- A candidate whose declared parent hash `[1, 2, 3]` matches no hash. -/
def coW : Block := Block.new [1, 2, 3] "o" 9 DanceMove.Y

/-- Witness: the concrete orphan is unplaceable and absent from the tree. -/
theorem orphan_spec_witness :
    (new_from_genesis_and_vec cgW [coW]).1.nodes.count coW =
      (if coW = cgW then 1 else 0) ∧
    coW ∈ (new_from_genesis_and_vec cgW [coW]).2 := by
  have h := orphan_spec cgW [coW] coW (by decide) (by decide)
  exact ⟨h.1, h.2.1⟩

/-- C1 (amended). In a cycle whose snapshot already contains a genesis, the
newly constructed block is handed to the outbound channel unconditionally:
the cycle broadcasts exactly the block `solve_block` left behind, whether or
not a digest was found — and when the budget is positive and no digest was
found, the broadcast block fails the proof-of-work check at the mining
difficulty instead of being discarded. -/
theorem mine_broadcast_unconditional (d : Nat) (name : String)
    (mi : Option Nat) (received : List Block) (r : RngState) (g : Block)
    (hg : received.find? (fun b => b.is_genesis d) = some g)
    (sent : List Block) (r' : RngState)
    (hcy : mineCycle d name mi received r = some (sent, r')) :
    ∃ leaf nb,
      selectTip (new_from_genesis_and_vec g received).1 = some leaf ∧
      nb = ((Block.new leaf.hash_block name 0
        (randomDancemove r).1).solve_block (randomDancemove r).2 d mi).1 ∧
      sent = [nb] ∧
      (0 < solveBudget mi →
        ((Block.new leaf.hash_block name 0
          (randomDancemove r).1).solve_block
            (randomDancemove r).2 d mi).2.1 = none →
        nb.pow_check nb.hash_block d = false) := by
  rw [mineCycle, hg] at hcy
  simp only at hcy
  match hsel : selectTip (new_from_genesis_and_vec g received).1 with
  | none =>
    rw [hsel] at hcy
    simp only at hcy
    exact Option.noConfusion hcy
  | some leaf =>
    rw [hsel] at hcy
    simp only at hcy
    refine ⟨leaf, ((Block.new leaf.hash_block name 0
      (randomDancemove r).1).solve_block (randomDancemove r).2 d mi).1,
      rfl, rfl, ?_, ?_⟩
    · have hs := congrArg Prod.fst (Option.some.inj hcy)
      simp only at hs
      rw [← hs]
      rfl
    · intro hk hnone
      set pre := Block.new leaf.hash_block name 0 (randomDancemove r).1
        with hpre
      set rs := (randomDancemove r).2 with hrs
      have heq : pre.solve_block rs d mi =
          ((pre.solve_block rs d mi).1, (pre.solve_block rs d mi).2.1,
            (pre.solve_block rs d mi).2.2) := rfl
      rw [hnone] at heq
      obtain ⟨hall, hlast⟩ := (solve_block_spec pre rs d mi).2
        (pre.solve_block rs d mi).1 (pre.solve_block rs d mi).2.2 heq
      have hfin := hlast hk
      have hfail := hall (solveBudget mi - 1) (by omega)
      rw [← hfin] at hfail
      exact hfail

/-- The all-zero draw stream used by the concrete mining cycle runs. -/
def rZeros : RngState := { seq := fun _ => 0, pos := 0 }

/-- Counterexample to C1 as stated: a concrete cycle (difficulty 8, one
attempt, all-zero draws) in which `solve_block` returns `none`, yet the
unsolved block is still handed to the outbound channel — every block sent in
the cycle fails the proof-of-work check. -/
theorem mine_broadcast_counterexample :
    (mineCycle 8 "m" (some 1) [cgW] rZeros).isSome = true ∧
    ((Block.new cgW.hash_block "m" 0 DanceMove.Y).solve_block
      { seq := fun _ => 0, pos := 1 } 8 (some 1)).2.1 = none ∧
    ((mineCycle 8 "m" (some 1) [cgW] rZeros).getD ([], rZeros)).1 =
      [((Block.new cgW.hash_block "m" 0 DanceMove.Y).solve_block
        { seq := fun _ => 0, pos := 1 } 8 (some 1)).1] ∧
    (((mineCycle 8 "m" (some 1) [cgW] rZeros).getD ([], rZeros)).1.all
      (fun b => !(b.pow_check b.hash_block 8))) = true := by
  refine ⟨by decide, by decide, by decide, by decide⟩

/-- Witness: the amended theorem applied to the concrete cycle shows exactly
one block is broadcast. -/
theorem mine_broadcast_unconditional_witness :
    ((mineCycle 8 "m" (some 1) [cgW] rZeros).getD ([], rZeros)).1.length
      = 1 := by
  obtain ⟨leaf, nb, h1, h2, h3, h4⟩ :=
    mine_broadcast_unconditional 8 "m" (some 1) [cgW] rZeros cgW (by decide)
      ((mineCycle 8 "m" (some 1) [cgW] rZeros).getD ([], rZeros)).1
      ((mineCycle 8 "m" (some 1) [cgW] rZeros).getD ([], rZeros)).2
      (by rfl)
  rw [h3]
  rfl

/-- Witness: on the example tree, the theorem picks the depth-3 leaf of
nonce 2. -/
theorem select_tip_spec_witness : selectTip exTree = some (tipB 2) :=
  select_tip_spec.2

/-- Witness: the deepest-leaf characterization evaluated on the example
tree. -/
theorem deepest_leafs_spec_witness :
    exTree.deepest_leafs =
      ((leavesD exTree 1).filter
        (fun p => p.2 == maxLeafDepth exTree)).map Prod.fst :=
  deepest_leafs_spec exTree

/-- Witness: the unwrapped minimum exists on the example tree. -/
theorem deepest_leafs_nonempty_and_tip_witness :
    (selectTip exTree).isSome = true :=
  deepest_leafs_nonempty_and_tip.2 exTree
